import Mathlib

/-!
# FIB entry and multicast strategy of NFD (nfd-ind)

A shallow embedding of `daemon/table/fib-entry.cpp` and
`daemon/fw/multicast-strategy.cpp`.

* A reference `Face&` is an object address (`FaceRef`); `&a == &b` is equality
  of addresses.  What a face answers to `getId()` and `getLinkType()` is read
  from a `Faces` table, since `face.hpp` is not part of the sources.
* `std::vector<NextHop>` is a `List NextHop`; an iterator is an index into the
  list and `end()` is its length.
* `uint64_t` values (cost, endpoint id) are natural numbers: they are only
  compared and copied, never computed with.
* Sending an interest is an output: functions that send return the list of the
  sends they made, in the order they made them.
-/

namespace nfd

/-- An NDN name, as a list of components. -/
abbrev Name := List String

/-- The type `EndpointId` (`uint64_t`). -/
abbrev EndpointId := Nat

/-- The type `FaceId` (`uint64_t`). -/
abbrev FaceId := Nat

/-- The address of a `Face` object: what `&face` evaluates to. -/
abbrev FaceRef := Nat

/-- The link types of `ndn::nfd::LinkType`. -/
inductive LinkType where
  | LINK_TYPE_POINT_TO_POINT
  | LINK_TYPE_MULTI_ACCESS
  | LINK_TYPE_AD_HOC
  deriving DecidableEq, Repr

/-- Modelled from the spec: `face.hpp` is not among the sources.  The two
queries the code makes of a face ("identity comparison, link-type query" in the
spec) are read from this table of the live `Face` objects. -/
structure Faces where
  /-- Source `Face::getId()` -/
  getId : FaceRef → FaceId
  /-- Source `Face::getLinkType()` -/
  getLinkType : FaceRef → LinkType

/-- Modelled from the spec: the request (`Interest`) is an external message; only
its identity matters here. -/
structure Interest where
  name : Name
  nonce : Nat
  deriving DecidableEq, Repr

/-- A pair of a face and an endpoint id (`FaceEndpoint`). -/
structure FaceEndpoint where
  face : FaceRef
  endpoint : EndpointId
  deriving DecidableEq, Repr

namespace pit

/-- Modelled from the spec: `pit-entry.hpp` is not among the sources.  The
pending-request record `{ request, satisfied: bool, name }`; its name is the
name of its request. -/
structure Entry where
  interest : Interest
  isSatisfied : Bool
  deriving DecidableEq, Repr

/-- Source `pit::Entry::getInterest()` -/
def Entry.getInterest (pe : Entry) : Interest := pe.interest

/-- Source `pit::Entry::getName()` -/
def Entry.getName (pe : Entry) : Name := pe.interest.name

end pit

namespace name_tree

/-- Modelled from the spec: `name-tree-entry.hpp` is not among the sources.  The
trie node `{ name, fib_entry: owns 0-or-1, strategy_selection: owns 0-or-1,
pending_requests: list, children: owned list }`.  `hasFibEntry` records whether
the node owns a FIB entry of its own, `strategyChoice` the strategy instance
name of its strategy-selection record, if any. -/
inductive Entry where
  | mk (name : Name) (hasFibEntry : Bool) (strategyChoice : Option Name)
      (pitEntries : List pit.Entry) (children : List Entry)

/-- Source `name_tree::Entry::getName()` -/
def Entry.getName : Entry → Name
  | .mk n _ _ _ _ => n

/-- Source `name_tree::Entry::getPitEntries()` -/
def Entry.getPitEntries : Entry → List pit.Entry
  | .mk _ _ _ pes _ => pes

/-- Source `name_tree::Entry::getChildren()` -/
def Entry.getChildren : Entry → List Entry
  | .mk _ _ _ _ cs => cs

/-- Source `name_tree::Entry::hasChildren()` -/
def Entry.hasChildren (nte : Entry) : Bool := !nte.getChildren.isEmpty

/-- Source `name_tree::Entry::hasPitEntries()` -/
def Entry.hasPitEntries (nte : Entry) : Bool := !nte.getPitEntries.isEmpty

/-- Whether the node owns a FIB entry (`getFibEntry() != nullptr`). -/
def Entry.hasFibEntry : Entry → Bool
  | .mk _ b _ _ _ => b

mutual
/-- The node itself followed by all its descendants, at every depth, in the
order of a depth-first walk along the child links. -/
def Entry.subtree : Entry → List Entry
  | .mk n b sc pes cs => .mk n b sc pes cs :: subtreeOfChildren cs
/-- The subtrees of the nodes of a list of children, one after the other. -/
def subtreeOfChildren : List Entry → List Entry
  | [] => []
  | c :: cs => c.subtree ++ subtreeOfChildren cs
end

/-- The pending-request records with `isSatisfied = false` found at the node or
at any descendant of it, whether or not the node they are at owns a FIB entry. -/
def Entry.unsatisfiedPending (nte : Entry) : List pit.Entry :=
  (nte.subtree.map Entry.getPitEntries).flatten.filter (fun pe => !pe.isSatisfied)

end name_tree

/-- One call of `Face::sendInterest(interest, endpointId)` on the face `face`. -/
structure SentInterest where
  face : FaceRef
  endpointId : EndpointId
  interest : Interest
  deriving DecidableEq, Repr

namespace fib

/-- Modelled from the spec: `fib-nexthop.hpp` is not among the sources.  The
record `{ link_ref, sub_endpoint_id, cost: unsigned }`. -/
structure NextHop where
  face : FaceRef
  endpointId : EndpointId
  cost : Nat
  deriving DecidableEq, Repr, Inhabited

/-- Source `NextHop::getFace()` -/
def NextHop.getFace (nh : NextHop) : FaceRef := nh.face

/-- Source `NextHop::getEndpointId()` -/
def NextHop.getEndpointId (nh : NextHop) : EndpointId := nh.endpointId

/-- Source `NextHop::getCost()` -/
def NextHop.getCost (nh : NextHop) : Nat := nh.cost

/-- Source `NextHop::setCost(cost)` -/
def NextHop.setCost (nh : NextHop) (cost : Nat) : NextHop := { nh with cost := cost }

/-- Modelled from the spec: the constructor `NextHop(face, endpointId)` of
`fib-nexthop.hpp`, which is not among the sources.  The cost of a new record is
zero until `setCost` is called, which `addOrUpdateNextHop` does before the
record is read. -/
def NextHop.new (face : FaceRef) (endpointId : EndpointId) : NextHop :=
  { face := face, endpointId := endpointId, cost := 0 }

/-- The type `NextHopList` (`std::vector<NextHop>`). -/
abbrev NextHopList := List NextHop

/-- The order `std::sort` establishes for the comparator
`a.getCost() < b.getCost()`: no later element compares less than an earlier
one. -/
def CostSorted (l : NextHopList) : Prop :=
  l.Pairwise (fun a b => ¬ (b.getCost < a.getCost))

instance : DecidablePred CostSorted := fun l => by
  unfold CostSorted; infer_instance

/-- The contract of `std::sort` with the comparator of `sortNextHops`: the
result is a rearrangement of the input in which no element compares less than
an element before it.  The order among records of equal cost is left open, as
`std::sort` is not stable. -/
structure StdSort where
  sort : NextHopList → NextHopList
  perm : ∀ l, (sort l).Perm l
  sorted : ∀ l, CostSorted (sort l)

/-- Source `std::find_if(first, last, p)`: the index of the first element satisfying
`p`, or the length of the list (`end()`) when there is none. -/
def find_if {α : Type} (p : α → Bool) : List α → Nat
  | [] => 0
  | x :: xs => if p x then 0 else find_if p xs + 1

/-- The loop of `std::remove_if`: `r` is the read position, `w` the write
position, `n` the number of elements still to read.  An element that is kept is
moved to the write position. -/
def remove_if_loop {α : Type} (p : α → Bool) : Nat → List α → Nat → Nat → List α × Nat
  | 0, v, w, _ => (v, w)
  | n + 1, v, w, r =>
    match v.get? r with
    | none => (v, w)
    | some x =>
      if p x then remove_if_loop p n v w (r + 1)
      else remove_if_loop p n (v.set w x) (w + 1) (r + 1)

/-- Source `std::remove_if(first, last, p)`: finds the first element to remove, then
shifts every later element that is kept towards the front.  Returns the
rearranged vector and the new logical end. -/
def remove_if {α : Type} (p : α → Bool) (v : List α) : List α × Nat :=
  let first := find_if p v
  if first = v.length then (v, first)
  else remove_if_loop p (v.length - (first + 1)) v first (first + 1)

/-- Source `vector::erase(first, end())`: drops everything from position `first` on. -/
def erase_to_end {α : Type} (v : List α) (first : Nat) : List α := v.take first

/-- A FIB entry (`fib::Entry`). -/
structure Entry where
  m_prefix : Name
  m_nextHops : NextHopList
  m_nameTreeEntry : Option name_tree.Entry

/-- Source `Entry::Entry(prefix)` -/
def Entry.new (pfx : Name) : Entry :=
  { m_prefix := pfx, m_nextHops := [], m_nameTreeEntry := none }

/-- Source `Entry::getPrefix()` -/
def Entry.getPrefix (e : Entry) : Name := Entry.m_prefix e

/-- Source `Entry::getNextHops()` -/
def Entry.getNextHops (e : Entry) : NextHopList := e.m_nextHops

/-- Source `Entry::hasNextHops()` -/
def Entry.hasNextHops (e : Entry) : Bool := !e.m_nextHops.isEmpty

/-- Source `Entry::findNextHop(face, endpointId)`: an iterator into `m_nextHops`. -/
def Entry.findNextHop (e : Entry) (face : FaceRef) (endpointId : EndpointId) : Nat :=
  find_if (fun nexthop => decide (nexthop.getFace = face) &&
    decide (nexthop.getEndpointId = endpointId)) e.m_nextHops

/-- Source `Entry::hasNextHop(face, endpointId)` -/
def Entry.hasNextHop (e : Entry) (face : FaceRef) (endpointId : EndpointId) : Bool :=
  decide (e.findNextHop face endpointId ≠ e.m_nextHops.length)

/-- The sends of the loop over `nte->getPitEntries()` in `sendPendingInterests`. -/
def sendPitEntries (newHop : NextHop) : List pit.Entry → List SentInterest
  | [] => []
  | pe :: rest =>
    if !pe.isSatisfied then
      { face := newHop.getFace, endpointId := newHop.getEndpointId,
        interest := pe.getInterest } :: sendPitEntries newHop rest
    else sendPitEntries newHop rest

mutual
/-- Source `Entry::sendPendingInterests(nte, newHop)` for a non-null `nte`. -/
def sendPendingInterestsNode (newHop : NextHop) : name_tree.Entry → List SentInterest
  | .mk _ _ _ pes cs =>
    if cs.isEmpty && pes.isEmpty then []
    else sendPitEntries newHop pes ++ sendPendingInterestsChildren newHop cs
/-- The loop over `nte->getChildren()` in `sendPendingInterests`. -/
def sendPendingInterestsChildren (newHop : NextHop) : List name_tree.Entry → List SentInterest
  | [] => []
  | ce :: rest =>
    sendPendingInterestsNode newHop ce ++ sendPendingInterestsChildren newHop rest
end

/-- Source `Entry::sendPendingInterests(nte, newHop)`: nothing is sent for a null
`nte`. -/
def Entry.sendPendingInterests (nte : Option name_tree.Entry) (newHop : NextHop) :
    List SentInterest :=
  match nte with
  | none => []
  | some t => sendPendingInterestsNode newHop t

/-- Source `Entry::sortNextHops()` -/
def Entry.sortNextHops (S : StdSort) (e : Entry) : Entry :=
  { e with m_nextHops := S.sort e.m_nextHops }

/-- The tail of `addOrUpdateNextHop`, from `it->setCost(cost)` on: `hops` is the
vector and `it` the iterator at that point. -/
def Entry.setCostSendSort (S : StdSort) (e : Entry) (hops : NextHopList) (it : Nat)
    (cost : Nat) : Entry × List SentInterest :=
  let hops1 := hops.modify (fun nh => nh.setCost cost) it
  let sent := Entry.sendPendingInterests e.m_nameTreeEntry (hops1.getD it default)
  (Entry.sortNextHops S { e with m_nextHops := hops1 }, sent)

/-- Source `Entry::addOrUpdateNextHop(face, endpointId, cost)`: the entry after the
call and the interests sent during it. -/
def Entry.addOrUpdateNextHop (S : StdSort) (e : Entry) (face : FaceRef)
    (endpointId : EndpointId) (cost : Nat) : Entry × List SentInterest :=
  let it := e.findNextHop face endpointId
  if it = e.m_nextHops.length then
    let hops := e.m_nextHops ++ [NextHop.new face endpointId]
    Entry.setCostSendSort S e hops (hops.length - 1) cost
  else if (e.m_nextHops.getD it default).getCost = cost then
    (e, [])
  else
    Entry.setCostSendSort S e e.m_nextHops it cost

/-- Source `Entry::removeNextHop(face, endpointId)` -/
def Entry.removeNextHop (e : Entry) (face : FaceRef) (endpointId : EndpointId) : Entry :=
  let it := e.findNextHop face endpointId
  if it ≠ e.m_nextHops.length then { e with m_nextHops := e.m_nextHops.eraseIdx it }
  else e

/-- Source `Entry::removeNextHopByFace(face)` -/
def Entry.removeNextHopByFace (e : Entry) (face : FaceRef) : Entry :=
  let r := remove_if (fun nexthop : NextHop => decide (nexthop.getFace = face)) e.m_nextHops
  { e with m_nextHops := erase_to_end r.1 r.2 }

/-- One mutating call on a FIB entry.  `setNameTreeEntry` is the assignment of
`m_nameTreeEntry` by the friend class `name_tree::Entry`; it also stands for
any change of the trie below the owning node between two calls. -/
inductive Op where
  | addOrUpdateNextHop (face : FaceRef) (endpointId : EndpointId) (cost : Nat)
  | removeNextHop (face : FaceRef) (endpointId : EndpointId)
  | removeNextHopByFace (face : FaceRef)
  | setNameTreeEntry (nte : Option name_tree.Entry)

/-- The entry after one call. -/
def Entry.step (S : StdSort) (e : Entry) : Op → Entry
  | .addOrUpdateNextHop face endpointId cost => (e.addOrUpdateNextHop S face endpointId cost).1
  | .removeNextHop face endpointId => e.removeNextHop face endpointId
  | .removeNextHopByFace face => e.removeNextHopByFace face
  | .setNameTreeEntry nte => { e with m_nameTreeEntry := nte }

/-- The entry after a sequence of calls, made from left to right. -/
def Entry.run (S : StdSort) (e : Entry) (ops : List Op) : Entry :=
  ops.foldl (Entry.step S) e

/-- The identity of a next-hop record: its face and endpoint id. -/
def NextHop.identity (nh : NextHop) : FaceRef × EndpointId := (nh.face, nh.endpointId)

/-- No two records of the list have the same identity. -/
def NoDupIdentity (l : NextHopList) : Prop := (l.map NextHop.identity).Nodup

instance : DecidablePred NoDupIdentity := fun l => by
  unfold NoDupIdentity; infer_instance

/-- Insertion of a record before the first record that costs more. -/
def insertByCost (a : NextHop) : NextHopList → NextHopList
  | [] => [a]
  | b :: l => if a.getCost < b.getCost then a :: b :: l else b :: insertByCost a l

/-- Insertion sort by cost, from the back of the list. -/
def insertionSortByCost : NextHopList → NextHopList
  | [] => []
  | a :: l => insertByCost a (insertionSortByCost l)

/-- A sort that meets the contract of `std::sort`: insertion sort by cost. -/
def insertionSort : StdSort where
  sort := insertionSortByCost
  perm := by
    have hins : ∀ (a : NextHop) (l : NextHopList), (insertByCost a l).Perm (a :: l) := by
      intro a l
      induction l with
      | nil => simp [insertByCost]
      | cons b l ih =>
        simp only [insertByCost]
        split
        · exact List.Perm.refl _
        · exact (List.Perm.cons b ih).trans (List.Perm.swap a b l)
    intro l
    induction l with
    | nil => exact List.Perm.refl _
    | cons a l ih => exact (hins a _).trans (List.Perm.cons a ih)
  sorted := by
    have hins : ∀ (a : NextHop) (l : NextHopList), (insertByCost a l).Perm (a :: l) := by
      intro a l
      induction l with
      | nil => simp [insertByCost]
      | cons b l ih =>
        simp only [insertByCost]
        split
        · exact List.Perm.refl _
        · exact (List.Perm.cons b ih).trans (List.Perm.swap a b l)
    have hsorted : ∀ (a : NextHop) (l : NextHopList), CostSorted l →
        CostSorted (insertByCost a l) := by
      intro a l
      induction l with
      | nil => intro _; simp [insertByCost, CostSorted]
      | cons b l ih =>
        intro h
        unfold CostSorted at h ih ⊢
        rw [List.pairwise_cons] at h
        simp only [insertByCost]
        split
        · rename_i hlt
          refine List.pairwise_cons.2 ⟨?_, List.pairwise_cons.2 h⟩
          intro x hx
          rcases List.mem_cons.1 hx with rfl | hx
          · omega
          · have := h.1 x hx
            omega
        · rename_i hge
          refine List.pairwise_cons.2 ⟨?_, ih h.2⟩
          intro x hx
          rcases List.mem_cons.1 ((hins a l).subset hx) with rfl | hx
          · exact hge
          · exact h.1 x hx
    intro l
    induction l with
    | nil => simp [insertionSortByCost, CostSorted]
    | cons a l ih => exact hsorted a _ ih

/-- The predicate of `findNextHop`: the record has this face and endpoint id. -/
def sameIdentity (face : FaceRef) (endpointId : EndpointId) (nexthop : NextHop) : Bool :=
  decide (nexthop.getFace = face) && decide (nexthop.getEndpointId = endpointId)

/-- The list in which every record of the identity has the cost `cost` and
every other record is as it was. -/
def withCost (face : FaceRef) (endpointId : EndpointId) (cost : Nat)
    (l : NextHopList) : NextHopList :=
  l.map (fun x => if x.face = face ∧ x.endpointId = endpointId then x.setCost cost else x)

/-- The entry of the example of the spec: it holds `F1` (face 1) at cost 5
and `F2` (face 2) at cost 2, on endpoint 0, and has no owning node yet. -/
def exampleEntry : Entry :=
  { m_prefix := ["example"], m_nextHops := [⟨2, 0, 2⟩, ⟨1, 0, 5⟩], m_nameTreeEntry := none }

/-- A sequence of calls that ends with the two removals: three records are
added, one of them twice with different costs, then the records of face 3 are
removed and then the record `(F4, 1)`. -/
def exampleOps : List Op :=
  [Op.addOrUpdateNextHop 1 0 5, Op.addOrUpdateNextHop 2 0 2, Op.addOrUpdateNextHop 3 0 1,
    Op.addOrUpdateNextHop 4 1 9, Op.addOrUpdateNextHop 2 0 7, Op.addOrUpdateNextHop 3 1 6,
    Op.removeNextHopByFace 3, Op.removeNextHop 4 1]

/-- A trie below the node `/a`: the node has one unsatisfied and one satisfied
pending request; its child `/a/b` owns a FIB entry of its own and has one
unsatisfied request, and a child `/a/b/c` with one more; its child `/a/d` has
neither requests nor children. -/
def exampleTree : name_tree.Entry :=
  .mk ["a"] true none
    [⟨⟨["a", "1"], 11⟩, false⟩, ⟨⟨["a", "2"], 12⟩, true⟩]
    [.mk ["a", "b"] true none [⟨⟨["a", "b", "1"], 13⟩, false⟩]
        [.mk ["a", "b", "c"] false none [⟨⟨["a", "b", "c", "1"], 14⟩, false⟩] []],
      .mk ["a", "d"] false none [] []]

/-- The entry of the example once the trie owns it, at the node `/a`. -/
def exampleEntryInTree : Entry :=
  { m_prefix := ["a"], m_nextHops := [⟨2, 0, 2⟩, ⟨1, 0, 5⟩],
    m_nameTreeEntry := some exampleTree }

/-- One call on a FIB entry with its output: the entry after the call and the
interests sent during it.  The bodies of `removeNextHop` and
`removeNextHopByFace` call neither `sendPendingInterests` nor `sendInterest`. -/
def Entry.call (S : StdSort) (e : Entry) : Op → Entry × List SentInterest
  | .addOrUpdateNextHop face endpointId cost => e.addOrUpdateNextHop S face endpointId cost
  | .removeNextHop face endpointId => (e.removeNextHop face endpointId, [])
  | .removeNextHopByFace face => (e.removeNextHopByFace face, [])
  | .setNameTreeEntry nte => ({ e with m_nameTreeEntry := nte }, [])

/-- A trie node without children whose one pending request is satisfied. -/
def satisfiedNode : name_tree.Entry :=
  .mk ["s"] false none [⟨⟨["s", "1"], 21⟩, true⟩] []

end fib

namespace fw

/-- One call of `Strategy::sendInterest(pitEntry, egress, interest)`. -/
structure SendInterestCall where
  pitEntry : pit.Entry
  egress : FaceEndpoint
  interest : Interest
  deriving DecidableEq, Repr

/-- The body of the loop of `MulticastStrategy::afterReceiveInterest` over the
next hops.  `wouldViolateScope` is the predicate of `algorithm.hpp`, which is
not among the sources. -/
def afterReceiveInterestLoop (F : Faces)
    (wouldViolateScope : FaceRef → Interest → FaceRef → Bool)
    (ingress : FaceEndpoint) (interest : Interest) (pitEntry : pit.Entry) :
    fib.NextHopList → List SendInterestCall
  | [] => []
  | nexthop :: rest =>
    let outFace := nexthop.getFace
    if (decide (F.getId outFace = F.getId ingress.face) &&
          decide (F.getLinkType outFace ≠ LinkType.LINK_TYPE_AD_HOC)) ||
        wouldViolateScope ingress.face interest outFace then
      afterReceiveInterestLoop F wouldViolateScope ingress interest pitEntry rest
    else
      { pitEntry := pitEntry, egress := { face := outFace, endpoint := 0 },
        interest := interest } ::
        afterReceiveInterestLoop F wouldViolateScope ingress interest pitEntry rest

/-- Source `MulticastStrategy::afterReceiveInterest(ingress, interest, pitEntry)`: the
calls of `sendInterest` it makes.  `lookupFib` is the longest-prefix lookup of
the forwarding pipeline. -/
def afterReceiveInterest (F : Faces)
    (wouldViolateScope : FaceRef → Interest → FaceRef → Bool)
    (lookupFib : pit.Entry → fib.Entry)
    (ingress : FaceEndpoint) (interest : Interest) (pitEntry : pit.Entry) :
    List SendInterestCall :=
  let fibEntry := lookupFib pitEntry
  let nexthops := fibEntry.getNextHops
  afterReceiveInterestLoop F wouldViolateScope ingress interest pitEntry nexthops

/-- The value of a hexadecimal digit. -/
def hexValue (c : Char) : Option Nat :=
  if 48 ≤ c.toNat ∧ c.toNat ≤ 57 then some (c.toNat - 48)
  else if 65 ≤ c.toNat ∧ c.toNat ≤ 70 then some (c.toNat - 55)
  else if 97 ≤ c.toNat ∧ c.toNat ≤ 102 then some (c.toNat - 87)
  else none

/-- The bytes of a name component written as a URI: `%XY` is the byte with the
hexadecimal digits `XY`, any other character is its own code.  The first
argument bounds the number of steps. -/
def unescapeLoop : Nat → List Char → List Nat
  | 0, _ => []
  | _ + 1, [] => []
  | fuel + 1, c :: rest =>
    if c.toNat = 37 then
      match rest with
      | a :: b :: rest2 =>
        match hexValue a, hexValue b with
        | some x, some y => (16 * x + y) :: unescapeLoop fuel rest2
        | _, _ => c.toNat :: unescapeLoop fuel rest
      | _ => c.toNat :: unescapeLoop fuel rest
    else c.toNat :: unescapeLoop fuel rest

/-- The bytes of a name component written as a URI. -/
def unescape (comp : String) : List Nat :=
  unescapeLoop comp.length comp.toList

/-- Modelled from the spec: `name::Component::isVersion()` of the name library,
which is not among the sources.  In `/localhost/nfd/strategy/<strategy-name>/%FD<version>`
"the last name component encodes a fixed-point version number": the marker byte
`0xFD` followed by a big-endian number of 1, 2, 4 or 8 bytes. -/
def isVersion (comp : String) : Bool :=
  match unescape comp with
  | 253 :: value =>
    decide (value.length = 1 ∨ value.length = 2 ∨ value.length = 4 ∨ value.length = 8)
  | _ => false

/-- Modelled from the spec: `name::Component::toVersion()` of the name library,
which is not among the sources: the number that follows the marker byte `0xFD`;
there is none when the component is not a version. -/
def toVersion (comp : String) : Option Nat :=
  if isVersion comp then
    some ((unescape comp).tail.foldl (fun acc b => 256 * acc + b) 0)
  else none

/-- The error `std::invalid_argument`, with its message, and the error of the
name library for a component that is not a version. -/
inductive ConstructionError where
  | invalid_argument (what : String)
  | component_error
  deriving DecidableEq, Repr

/-- The result of `Strategy::parseInstanceName` (`ParsedInstanceName`): the
strategy name, the version if the instance name has one, and the parameter
components. -/
structure ParsedInstanceName where
  strategyName : Name
  version : Option Nat
  parameters : Name
  deriving DecidableEq, Repr

/-- A constructed `MulticastStrategy`: what the constructor sets is its instance
name. -/
structure MulticastStrategy where
  instanceName : Name
  deriving DecidableEq, Repr

/-- Source `MulticastStrategy::getStrategyName()` -/
def MulticastStrategy.getStrategyName : Name :=
  ["localhost", "nfd", "strategy", "multicast", "%FD%03"]

/-- Source `MulticastStrategy::MulticastStrategy(forwarder, name)`: the constructed
strategy or the exception thrown.  `parseInstanceName` and `makeInstanceName` are
the functions of the base class `Strategy`, which is not among the sources. -/
def MulticastStrategy.new (parseInstanceName : Name → ParsedInstanceName)
    (makeInstanceName : Name → Name → Name) (name : Name) :
    Except ConstructionError MulticastStrategy :=
  let parsed := parseInstanceName name
  if !parsed.parameters.isEmpty then
    Except.error (ConstructionError.invalid_argument
      "MulticastStrategy does not accept parameters")
  else
    match parsed.version with
    | some version =>
      match toVersion (MulticastStrategy.getStrategyName.getLastD "") with
      | none => Except.error ConstructionError.component_error
      | some supported =>
        if version ≠ supported then
          Except.error (ConstructionError.invalid_argument
            ("MulticastStrategy does not support version " ++ toString version))
        else
          Except.ok { instanceName := makeInstanceName name MulticastStrategy.getStrategyName }
    | none =>
      Except.ok { instanceName := makeInstanceName name MulticastStrategy.getStrategyName }

/-- The search of `parseInstanceName` for the last version component, from
position `i` down to position 1. -/
def findVersionFrom (input : Name) : Nat → Option Nat
  | 0 => none
  | i + 1 => if isVersion (input.getD (i + 1) "") then some (i + 1) else findVersionFrom input i

/-- Modelled from the spec: `Strategy::parseInstanceName` of the base class, which
is not among the sources: "given an instance name, parse out declared
parameters and an optional version suffix".  The components up to the last
version component are the strategy name, the ones behind it the parameters. -/
def parseInstanceName (input : Name) : ParsedInstanceName :=
  match findVersionFrom input (input.length - 1) with
  | some i =>
    { strategyName := input.take (i + 1), version := toVersion (input.getD i ""),
      parameters := input.drop (i + 1) }
  | none => { strategyName := input, version := none, parameters := [] }

/-- Modelled from the spec: `Strategy::makeInstanceName` of the base class, which
is not among the sources: "the fully-qualified instance name (base name +
accepted version)". -/
def makeInstanceName (input : Name) (strategyName : Name) : Name :=
  if input.any isVersion then input else input ++ [strategyName.getLastD ""]

/-- A negative acknowledgement (`lp::Nack`): the interest it answers and its
reason code. -/
structure Nack where
  interest : Interest
  reason : Nat
  deriving DecidableEq, Repr

/-- The state a strategy callback can reach: the strategy itself, the FIB
entries, and the PIT entry it is called with. -/
structure StrategyWorld where
  strategy : MulticastStrategy
  fibEntries : List fib.Entry
  pitEntry : pit.Entry

/-- Source `MulticastStrategy::afterReceiveNack(ingress, nack, pitEntry)`: the state
after the call and the calls of `sendInterest` it makes.  The body is empty. -/
def afterReceiveNack (w : StrategyWorld) (_ingress : FaceEndpoint) (_nack : Nack) :
    StrategyWorld × List SendInterestCall :=
  (w, [])

/-- A FIB entry with three records of one face `A` (face 1), on the endpoints 7,
8 and 9, and one record of face 2. -/
def exampleFibEndpoints : fib.Entry :=
  { m_prefix := ["example"],
    m_nextHops := [⟨1, 7, 1⟩, ⟨2, 5, 2⟩, ⟨1, 8, 3⟩, ⟨1, 9, 4⟩],
    m_nameTreeEntry := none }

/-- Whether the strategy skips a next-hop record: its face has the id of the
ingress face and a link type other than ad-hoc, or forwarding to its face would
violate scope. -/
def excluded (F : Faces) (wouldViolateScope : FaceRef → Interest → FaceRef → Bool)
    (ingress : FaceEndpoint) (interest : Interest) (nexthop : fib.NextHop) : Bool :=
  (decide (F.getId nexthop.face = F.getId ingress.face) &&
    decide (F.getLinkType nexthop.face ≠ LinkType.LINK_TYPE_AD_HOC)) ||
  wouldViolateScope ingress.face interest nexthop.face

/-- The faces of the example of the spec: the face at address `r` has the id
`r`; none is ad-hoc. -/
def exampleFaces : Faces :=
  { getId := fun r => r, getLinkType := fun _ => LinkType.LINK_TYPE_POINT_TO_POINT }

/-- The scope predicate of the example of the spec: only forwarding to `C` (face 3)
would violate scope. -/
def exampleScope : FaceRef → Interest → FaceRef → Bool :=
  fun _ _ outFace => decide (outFace = 3)

/-- The FIB entry of the example of the spec, with the next hops `[A, B, C]` (faces
1, 2, 3). -/
def exampleFib : fib.Entry :=
  { m_prefix := ["example"], m_nextHops := [⟨1, 0, 1⟩, ⟨2, 0, 2⟩, ⟨3, 0, 3⟩],
    m_nameTreeEntry := none }

/-- The interest of the example. -/
def exampleInterest : Interest := ⟨["example", "x"], 1⟩

end fw

/-! ## The library algorithms -/

namespace fib

theorem find_if_le {α : Type} (p : α → Bool) (l : List α) : find_if p l ≤ l.length := by
  induction l with
  | nil => simp [find_if]
  | cons x xs ih =>
    simp only [find_if]
    split
    · simp
    · simpa using ih

/-- What `find_if` returns: either nothing satisfies `p` and the result is the
length, or the list splits at the result into a front without a match and the
first match. -/
theorem find_if_spec {α : Type} (p : α → Bool) (l : List α) :
    ((∀ x ∈ l, p x = false) ∧ find_if p l = l.length) ∨
    (∃ l1 x l2, l = l1 ++ x :: l2 ∧ (∀ y ∈ l1, p y = false) ∧ p x = true ∧
      find_if p l = l1.length) := by
  induction l with
  | nil => left; simp [find_if]
  | cons a as ih =>
    by_cases ha : p a = true
    · right
      exact ⟨[], a, as, rfl, by simp, ha, by simp [find_if, ha]⟩
    · have ha' : p a = false := by simpa using ha
      rcases ih with ⟨hall, hlen⟩ | ⟨l1, x, l2, hl, hfront, hx, hidx⟩
      · left
        refine ⟨?_, by simp [find_if, ha', hlen]⟩
        intro y hy
        rcases List.mem_cons.1 hy with rfl | hy
        · exact ha'
        · exact hall y hy
      · right
        refine ⟨a :: l1, x, l2, by simp [hl], ?_, hx, by simp [find_if, ha', hidx]⟩
        intro y hy
        rcases List.mem_cons.1 hy with rfl | hy
        · exact ha'
        · exact hfront y hy

theorem find_if_eq_length_iff {α : Type} (p : α → Bool) (l : List α) :
    find_if p l = l.length ↔ ∀ x ∈ l, p x = false := by
  constructor
  · intro h
    rcases find_if_spec p l with ⟨hall, _⟩ | ⟨l1, x, l2, hl, _, _, hidx⟩
    · exact hall
    · rw [hidx, hl] at h
      simp at h
  · intro h
    rcases find_if_spec p l with ⟨_, hlen⟩ | ⟨l1, x, l2, hl, _, hx, _⟩
    · exact hlen
    · have := h x (by simp [hl])
      simp [hx] at this

theorem modify_append_cons {α : Type} (f : α → α) (l1 : List α) (x : α) (l2 : List α) :
    (l1 ++ x :: l2).modify f l1.length = l1 ++ f x :: l2 := by
  induction l1 with
  | nil => simp
  | cons a as ih => simpa using ih

theorem getD_append_cons {α : Type} (l1 : List α) (x : α) (l2 : List α) (d : α) :
    (l1 ++ x :: l2).getD l1.length d = x := by
  induction l1 with
  | nil => simp
  | cons a as ih => simpa using ih

theorem eraseIdx_append_cons {α : Type} (l1 : List α) (x : α) (l2 : List α) :
    (l1 ++ x :: l2).eraseIdx l1.length = l1 ++ l2 := by
  induction l1 with
  | nil => simp
  | cons a as ih => simpa using ih

theorem filter_eq_self_of_all_false {α : Type} (p : α → Bool) (l : List α)
    (h : ∀ x ∈ l, p x = false) : l.filter (fun x => !p x) = l := by
  rw [List.filter_eq_self]
  intro x hx
  simp [h x hx]

/-- The invariant of the loop of `std::remove_if`: what lies before the write
position at the end is what lay before it at the start, followed by the kept
elements of what was still to read. -/
theorem remove_if_loop_spec {α : Type} (p : α → Bool) :
    ∀ (n : Nat) (v : List α) (w r : Nat), w ≤ r → r + n = v.length →
      (remove_if_loop p n v w r).1.take (remove_if_loop p n v w r).2 =
        v.take w ++ (v.drop r).filter (fun x => !p x) := by
  intro n
  induction n with
  | zero =>
    intro v w r _ hr
    have : v.drop r = [] := List.drop_eq_nil_of_le (by omega)
    simp [remove_if_loop, this]
  | succ n ih =>
    intro v w r hw hr
    have hlt : r < v.length := by omega
    have hget : v.get? r = some v[r] := by simp [List.getElem?_eq_getElem hlt]
    have hdrop : v.drop r = v[r] :: v.drop (r + 1) := List.drop_eq_getElem_cons hlt
    simp only [remove_if_loop, hget]
    by_cases hp : p v[r] = true
    · simp only [hp, if_true]
      rw [ih v w (r + 1) (by omega) (by omega), hdrop,
        List.filter_cons_of_neg (by simp [hp])]
    · have hp' : p v[r] = false := by simpa using hp
      simp only [hp', Bool.false_eq_true, if_false]
      rw [ih (v.set w v[r]) (w + 1) (r + 1) (by omega) (by simp; omega), hdrop]
      have h1 : (v.set w v[r]).take (w + 1) = v.take w ++ [v[r]] := by
        have hwl : w < (v.set w v[r]).length := by simp; omega
        have hsame : (v.set w v[r]).take w = v.take w :=
          List.ext_getElem? fun i => by
            rw [List.getElem?_take, List.getElem?_take]
            split
            · rw [List.getElem?_set_ne (by omega)]
            · rfl
        rw [List.take_succ, List.getElem?_eq_getElem hwl, hsame]
        simp
      have h2 : (v.set w v[r]).drop (r + 1) = v.drop (r + 1) :=
        List.drop_set_of_lt _ _ (by omega)
      rw [h1, h2, List.filter_cons_of_pos (by simp [hp'])]
      simp

/-- The erase-remove idiom keeps exactly the elements that do not satisfy `p`,
in their order. -/
theorem erase_remove_if_eq_filter {α : Type} (p : α → Bool) (v : List α) :
    erase_to_end (remove_if p v).1 (remove_if p v).2 = v.filter (fun x => !p x) := by
  unfold erase_to_end remove_if
  rcases find_if_spec p v with ⟨hall, hlen⟩ | ⟨l1, x, l2, hl, hfront, hx, hidx⟩
  · simp only [hlen, if_true]
    rw [filter_eq_self_of_all_false p v hall]
    simp
  · have hne : find_if p v ≠ v.length := by
      rw [hidx, hl]; simp
    simp only [hne, if_false]
    rw [remove_if_loop_spec p _ v _ _ (by omega) (by
      have := find_if_le p v
      have h3 : find_if p v < v.length := by omega
      omega)]
    rw [hidx, hl]
    have h1 : (l1 ++ x :: l2).take l1.length = l1 := by simp
    have h2 : (l1 ++ x :: l2).drop (l1.length + 1) = l2 := by
      rw [List.drop_append_eq_append_drop]
      simp
    rw [h1, h2, List.filter_append, filter_eq_self_of_all_false p l1 hfront]
    simp [hx]

/-! ## What each operation does to the next-hop list -/

theorem sameIdentity_eq_true (face : FaceRef) (endpointId : EndpointId) (x : NextHop) :
    sameIdentity face endpointId x = true ↔ x.face = face ∧ x.endpointId = endpointId := by
  simp [sameIdentity, NextHop.getFace, NextHop.getEndpointId]

theorem sameIdentity_eq_false (face : FaceRef) (endpointId : EndpointId) (x : NextHop) :
    sameIdentity face endpointId x = false ↔ ¬ (x.face = face ∧ x.endpointId = endpointId) := by
  rw [← sameIdentity_eq_true]; simp

theorem findNextHop_eq (e : Entry) (face : FaceRef) (endpointId : EndpointId) :
    e.findNextHop face endpointId = find_if (sameIdentity face endpointId) e.m_nextHops := rfl

theorem hasNextHop_eq_false_iff (e : Entry) (face : FaceRef) (endpointId : EndpointId) :
    e.hasNextHop face endpointId = false ↔
      ∀ x ∈ e.m_nextHops, ¬ (x.face = face ∧ x.endpointId = endpointId) := by
  unfold Entry.hasNextHop
  rw [findNextHop_eq, decide_eq_false_iff_not, not_not, find_if_eq_length_iff]
  constructor
  · intro h x hx
    exact (sameIdentity_eq_false _ _ x).1 (h x hx)
  · intro h x hx
    exact (sameIdentity_eq_false _ _ x).2 (h x hx)

theorem hasNextHop_eq_true_iff (e : Entry) (face : FaceRef) (endpointId : EndpointId) :
    e.hasNextHop face endpointId = true ↔
      ∃ x ∈ e.m_nextHops, x.face = face ∧ x.endpointId = endpointId := by
  rw [← Bool.not_eq_false, hasNextHop_eq_false_iff]
  push_neg
  rfl

/-- The three ways `findNextHop` can come out: no record has the identity, or
the list splits at the first record that has it. -/
theorem findNextHop_cases (e : Entry) (face : FaceRef) (endpointId : EndpointId) :
    ((∀ x ∈ e.m_nextHops, ¬ (x.face = face ∧ x.endpointId = endpointId)) ∧
      e.findNextHop face endpointId = e.m_nextHops.length) ∨
    (∃ l1 c0 l2, e.m_nextHops = l1 ++ ⟨face, endpointId, c0⟩ :: l2 ∧
      (∀ y ∈ l1, ¬ (y.face = face ∧ y.endpointId = endpointId)) ∧
      e.findNextHop face endpointId = l1.length) := by
  rw [findNextHop_eq]
  rcases find_if_spec (sameIdentity face endpointId) e.m_nextHops with
    ⟨hall, hlen⟩ | ⟨l1, x, l2, hl, hfront, hx, hidx⟩
  · left
    exact ⟨fun x hx => (sameIdentity_eq_false _ _ x).1 (hall x hx), hlen⟩
  · right
    obtain ⟨xf, xe, xc⟩ := x
    have hx' := (sameIdentity_eq_true _ _ _).1 hx
    simp only at hx'
    obtain ⟨rfl, rfl⟩ := hx'
    exact ⟨l1, xc, l2, hl, fun y hy => (sameIdentity_eq_false _ _ y).1 (hfront y hy), hidx⟩

theorem find_if_append_cons {α : Type} (p : α → Bool) (l1 : List α) (x : α) (l2 : List α)
    (hfront : ∀ y ∈ l1, p y = false) (hx : p x = true) :
    find_if p (l1 ++ x :: l2) = l1.length := by
  induction l1 with
  | nil => simp [find_if, hx]
  | cons a as ih =>
    have ha : p a = false := hfront a (by simp)
    have := ih (fun y hy => hfront y (by simp [hy]))
    simp [find_if, ha, this]

theorem findNextHop_of_split (e : Entry) (face : FaceRef) (endpointId : EndpointId)
    (c0 : Nat) (l1 l2 : NextHopList)
    (hl : e.m_nextHops = l1 ++ ⟨face, endpointId, c0⟩ :: l2)
    (hfront : ∀ y ∈ l1, ¬ (y.face = face ∧ y.endpointId = endpointId)) :
    e.findNextHop face endpointId = l1.length := by
  rw [findNextHop_eq, hl]
  exact find_if_append_cons _ _ _ _
    (fun y hy => (sameIdentity_eq_false _ _ y).2 (hfront y hy))
    ((sameIdentity_eq_true _ _ _).2 ⟨rfl, rfl⟩)

/-- A call for an identity that no record has: the record is appended with its
cost, pending interests are sent to it, and the list is sorted. -/
theorem addOrUpdateNextHop_of_absent (S : StdSort) (e : Entry) (face : FaceRef)
    (endpointId : EndpointId) (cost : Nat)
    (h : ∀ x ∈ e.m_nextHops, ¬ (x.face = face ∧ x.endpointId = endpointId)) :
    e.addOrUpdateNextHop S face endpointId cost =
      ({ e with m_nextHops := S.sort (e.m_nextHops ++ [⟨face, endpointId, cost⟩]) },
        Entry.sendPendingInterests e.m_nameTreeEntry ⟨face, endpointId, cost⟩) := by
  have hfind : e.findNextHop face endpointId = e.m_nextHops.length := by
    rcases findNextHop_cases e face endpointId with ⟨_, hlen⟩ | ⟨l1, c0, l2, hl, _, _⟩
    · exact hlen
    · exact absurd ⟨rfl, rfl⟩ (h ⟨face, endpointId, c0⟩ (by simp [hl]))
  have hmod : (e.m_nextHops ++ [NextHop.new face endpointId]).modify
      (fun nh => nh.setCost cost) e.m_nextHops.length =
      e.m_nextHops ++ [⟨face, endpointId, cost⟩] :=
    modify_append_cons _ _ _ _
  simp only [Entry.addOrUpdateNextHop, hfind, if_true, Entry.setCostSendSort,
    Entry.sortNextHops, List.length_append, List.length_singleton, Nat.add_sub_cancel, hmod]
  rw [getD_append_cons]

/-- A call for an identity whose first record already has the cost: nothing
changes and nothing is sent. -/
theorem addOrUpdateNextHop_of_same (S : StdSort) (e : Entry) (face : FaceRef)
    (endpointId : EndpointId) (cost : Nat) (l1 l2 : NextHopList)
    (hl : e.m_nextHops = l1 ++ ⟨face, endpointId, cost⟩ :: l2)
    (hfront : ∀ y ∈ l1, ¬ (y.face = face ∧ y.endpointId = endpointId)) :
    e.addOrUpdateNextHop S face endpointId cost = (e, []) := by
  have hfind : e.findNextHop face endpointId = l1.length :=
    findNextHop_of_split e face endpointId cost l1 l2 hl hfront
  have hne : l1.length ≠ (l1 ++ (⟨face, endpointId, cost⟩ : NextHop) :: l2).length := by
    simp
  simp only [Entry.addOrUpdateNextHop, hfind, hl, hne, if_false, getD_append_cons,
    NextHop.getCost, if_true]

/-- A call for an identity whose first record has another cost: that record
gets the cost, pending interests are sent to it, and the list is sorted. -/
theorem addOrUpdateNextHop_of_other (S : StdSort) (e : Entry) (face : FaceRef)
    (endpointId : EndpointId) (cost c0 : Nat) (l1 l2 : NextHopList)
    (hl : e.m_nextHops = l1 ++ ⟨face, endpointId, c0⟩ :: l2)
    (hfront : ∀ y ∈ l1, ¬ (y.face = face ∧ y.endpointId = endpointId))
    (hc : c0 ≠ cost) :
    e.addOrUpdateNextHop S face endpointId cost =
      ({ e with m_nextHops := S.sort (l1 ++ ⟨face, endpointId, cost⟩ :: l2) },
        Entry.sendPendingInterests e.m_nameTreeEntry ⟨face, endpointId, cost⟩) := by
  have hfind : e.findNextHop face endpointId = l1.length :=
    findNextHop_of_split e face endpointId c0 l1 l2 hl hfront
  have hne : l1.length ≠ (l1 ++ (⟨face, endpointId, c0⟩ : NextHop) :: l2).length := by
    simp
  have hmod : (l1 ++ (⟨face, endpointId, c0⟩ : NextHop) :: l2).modify
      (fun nh => nh.setCost cost) l1.length = l1 ++ ⟨face, endpointId, cost⟩ :: l2 :=
    modify_append_cons _ _ _ _
  simp only [Entry.addOrUpdateNextHop, hfind, hl, hne, if_false, getD_append_cons,
    NextHop.getCost, hc, Entry.setCostSendSort, Entry.sortNextHops, hmod]

theorem removeNextHop_of_absent (e : Entry) (face : FaceRef) (endpointId : EndpointId)
    (h : ∀ x ∈ e.m_nextHops, ¬ (x.face = face ∧ x.endpointId = endpointId)) :
    e.removeNextHop face endpointId = e := by
  have hfind : e.findNextHop face endpointId = e.m_nextHops.length := by
    rcases findNextHop_cases e face endpointId with ⟨_, hlen⟩ | ⟨l1, c0, l2, hl, _, _⟩
    · exact hlen
    · exact absurd ⟨rfl, rfl⟩ (h ⟨face, endpointId, c0⟩ (by simp [hl]))
  simp [Entry.removeNextHop, hfind]

theorem removeNextHop_of_split (e : Entry) (face : FaceRef) (endpointId : EndpointId)
    (c0 : Nat) (l1 l2 : NextHopList)
    (hl : e.m_nextHops = l1 ++ ⟨face, endpointId, c0⟩ :: l2)
    (hfront : ∀ y ∈ l1, ¬ (y.face = face ∧ y.endpointId = endpointId)) :
    e.removeNextHop face endpointId = { e with m_nextHops := l1 ++ l2 } := by
  have hfind : e.findNextHop face endpointId = l1.length :=
    findNextHop_of_split e face endpointId c0 l1 l2 hl hfront
  have hne : l1.length ≠ (l1 ++ (⟨face, endpointId, c0⟩ : NextHop) :: l2).length := by
    simp
  simp only [Entry.removeNextHop, hfind, hl, ne_eq, hne, not_false_eq_true, if_true,
    eraseIdx_append_cons]

theorem removeNextHopByFace_nextHops (e : Entry) (face : FaceRef) :
    (e.removeNextHopByFace face).m_nextHops =
      e.m_nextHops.filter (fun x => !decide (x.getFace = face)) := by
  simp only [Entry.removeNextHopByFace]
  exact erase_remove_if_eq_filter _ _

/-! ## The two invariants of the next-hop list -/

theorem costSorted_of_sublist {l1 l2 : NextHopList} (hs : l1.Sublist l2) (h : CostSorted l2) :
    CostSorted l1 :=
  List.Pairwise.sublist hs h

theorem noDupIdentity_of_sublist {l1 l2 : NextHopList} (hs : l1.Sublist l2)
    (h : NoDupIdentity l2) : NoDupIdentity l1 :=
  List.Nodup.sublist (hs.map _) h

theorem noDupIdentity_of_perm {l1 l2 : NextHopList} (hp : l1.Perm l2) (h : NoDupIdentity l2) :
    NoDupIdentity l1 :=
  ((hp.map NextHop.identity).nodup_iff).2 h

theorem sublist_append_of_cons (l1 l2 : NextHopList) (x : NextHop) :
    (l1 ++ l2).Sublist (l1 ++ x :: l2) :=
  List.Sublist.append (List.Sublist.refl l1) (List.sublist_cons_self x l2)

/-- Every call leaves a sorted list sorted. -/
theorem step_costSorted (S : StdSort) (e : Entry) (op : Op) (h : CostSorted e.m_nextHops) :
    CostSorted (e.step S op).m_nextHops := by
  cases op with
  | addOrUpdateNextHop face endpointId cost =>
    simp only [Entry.step]
    rcases findNextHop_cases e face endpointId with ⟨hall, _⟩ | ⟨l1, c0, l2, hl, hfront, _⟩
    · rw [addOrUpdateNextHop_of_absent S e face endpointId cost hall]
      exact S.sorted _
    · by_cases hc : c0 = cost
      · subst hc
        rw [addOrUpdateNextHop_of_same S e face endpointId c0 l1 l2 hl hfront]
        exact h
      · rw [addOrUpdateNextHop_of_other S e face endpointId cost c0 l1 l2 hl hfront hc]
        exact S.sorted _
  | removeNextHop face endpointId =>
    simp only [Entry.step]
    rcases findNextHop_cases e face endpointId with ⟨hall, _⟩ | ⟨l1, c0, l2, hl, hfront, _⟩
    · rw [removeNextHop_of_absent e face endpointId hall]
      exact h
    · rw [removeNextHop_of_split e face endpointId c0 l1 l2 hl hfront]
      rw [hl] at h
      exact costSorted_of_sublist (sublist_append_of_cons l1 l2 _) h
  | removeNextHopByFace face =>
    simp only [Entry.step]
    rw [removeNextHopByFace_nextHops]
    exact costSorted_of_sublist (List.filter_sublist _) h
  | setNameTreeEntry nte => exact h

/-- Every call leaves a list without two records of one identity such a list. -/
theorem step_noDupIdentity (S : StdSort) (e : Entry) (op : Op)
    (h : NoDupIdentity e.m_nextHops) : NoDupIdentity (e.step S op).m_nextHops := by
  cases op with
  | addOrUpdateNextHop face endpointId cost =>
    simp only [Entry.step]
    rcases findNextHop_cases e face endpointId with ⟨hall, _⟩ | ⟨l1, c0, l2, hl, hfront, _⟩
    · rw [addOrUpdateNextHop_of_absent S e face endpointId cost hall]
      refine noDupIdentity_of_perm (S.perm _) ?_
      unfold NoDupIdentity at h ⊢
      rw [List.map_append, List.nodup_append]
      refine ⟨h, by simp, ?_⟩
      intro i hi1 hi2
      rcases List.mem_map.1 hi1 with ⟨x, hx, rfl⟩
      simp only [List.map_cons, List.map_nil, List.mem_singleton, NextHop.identity,
        Prod.mk.injEq] at hi2
      exact hall x hx hi2
    · by_cases hc : c0 = cost
      · subst hc
        rw [addOrUpdateNextHop_of_same S e face endpointId c0 l1 l2 hl hfront]
        exact h
      · rw [addOrUpdateNextHop_of_other S e face endpointId cost c0 l1 l2 hl hfront hc]
        refine noDupIdentity_of_perm (S.perm _) ?_
        rw [hl] at h
        unfold NoDupIdentity at h ⊢
        simpa [NextHop.identity] using h
  | removeNextHop face endpointId =>
    simp only [Entry.step]
    rcases findNextHop_cases e face endpointId with ⟨hall, _⟩ | ⟨l1, c0, l2, hl, hfront, _⟩
    · rw [removeNextHop_of_absent e face endpointId hall]
      exact h
    · rw [removeNextHop_of_split e face endpointId c0 l1 l2 hl hfront]
      rw [hl] at h
      exact noDupIdentity_of_sublist (sublist_append_of_cons l1 l2 _) h
  | removeNextHopByFace face =>
    simp only [Entry.step]
    rw [removeNextHopByFace_nextHops]
    exact noDupIdentity_of_sublist (List.filter_sublist _) h
  | setNameTreeEntry nte => exact h

theorem run_invariant (S : StdSort) (P : NextHopList → Prop)
    (hstep : ∀ (e : Entry) (op : Op), P e.m_nextHops → P (e.step S op).m_nextHops)
    (ops : List Op) : ∀ e : Entry, P e.m_nextHops → P (e.run S ops).m_nextHops := by
  induction ops with
  | nil => intro e h; exact h
  | cons op ops ih =>
    intro e h
    exact ih (e.step S op) (hstep e op h)

/-- A list of strictly increasing cost is the only sorted arrangement of its
records: every sort returns it. -/
theorem sort_eq_of_strictly_increasing (S : StdSort) (l target : NextHopList)
    (hp : target.Perm l) (hs : target.Pairwise (fun a b => a.cost < b.cost)) :
    S.sort l = target := by
  have hperm : (S.sort l).Perm target := (S.perm l).trans hp.symm
  have hne : (S.sort l).Pairwise (fun a b => a.cost ≠ b.cost) := by
    have h1 : (target.map NextHop.cost).Nodup := by
      unfold List.Nodup
      rw [List.pairwise_map]
      exact hs.imp (fun h => Nat.ne_of_lt h)
    have h2 : ((S.sort l).map NextHop.cost).Nodup :=
      ((hperm.map NextHop.cost).nodup_iff).2 h1
    unfold List.Nodup at h2
    rwa [List.pairwise_map] at h2
  have hlt : (S.sort l).Pairwise (fun a b => a.cost < b.cost) := by
    have hsorted : (S.sort l).Pairwise (fun a b => ¬ (b.getCost < a.getCost)) := S.sorted l
    refine (hsorted.and hne).imp ?_
    intro a b hab
    have h1 := hab.1
    have h2 := hab.2
    simp only [NextHop.getCost] at h1
    omega
  haveI : IsAntisymm NextHop (fun a b => a.cost < b.cost) :=
    ⟨fun a b h1 h2 => absurd h1 (by omega)⟩
  exact List.eq_of_perm_of_sorted hperm hlt hs

/-- In a list without two records of one identity, no record behind a record
has its identity. -/
theorem noDupIdentity_back (face : FaceRef) (endpointId : EndpointId) (c0 : Nat)
    (l1 l2 : NextHopList) (hnd : NoDupIdentity (l1 ++ ⟨face, endpointId, c0⟩ :: l2)) :
    ∀ y ∈ l2, ¬ (y.face = face ∧ y.endpointId = endpointId) := by
  intro y hy hsame
  unfold NoDupIdentity at hnd
  rw [List.map_append, List.map_cons, List.nodup_append, List.nodup_cons] at hnd
  apply hnd.2.1.1
  rw [List.mem_map]
  exact ⟨y, hy, by simp [NextHop.identity, hsame.1, hsame.2]⟩

/-- In a list without two records of one identity, a record of the identity is
the first record of that identity. -/
theorem eq_of_mem_of_noDupIdentity (face : FaceRef) (endpointId : EndpointId) (c0 : Nat)
    (l1 l2 : NextHopList) (hnd : NoDupIdentity (l1 ++ ⟨face, endpointId, c0⟩ :: l2))
    (hfront : ∀ y ∈ l1, ¬ (y.face = face ∧ y.endpointId = endpointId))
    (x : NextHop) (hx : x ∈ l1 ++ ⟨face, endpointId, c0⟩ :: l2)
    (hsame : x.face = face ∧ x.endpointId = endpointId) : x = ⟨face, endpointId, c0⟩ := by
  rcases List.mem_append.1 hx with h1 | h2
  · exact absurd hsame (hfront x h1)
  · rcases List.mem_cons.1 h2 with rfl | h3
    · rfl
    · exact absurd hsame (noDupIdentity_back face endpointId c0 l1 l2 hnd x h3)

theorem withCost_of_none (face : FaceRef) (endpointId : EndpointId) (cost : Nat)
    (l : NextHopList) (h : ∀ y ∈ l, ¬ (y.face = face ∧ y.endpointId = endpointId)) :
    withCost face endpointId cost l = l := by
  unfold withCost
  induction l with
  | nil => rfl
  | cons a as ih =>
    have ha : ¬ (a.face = face ∧ a.endpointId = endpointId) := h a (by simp)
    rw [List.map_cons, ih (fun y hy => h y (by simp [hy])), if_neg ha]

theorem withCost_of_split (face : FaceRef) (endpointId : EndpointId) (cost c0 : Nat)
    (l1 l2 : NextHopList)
    (hfront : ∀ y ∈ l1, ¬ (y.face = face ∧ y.endpointId = endpointId))
    (hback : ∀ y ∈ l2, ¬ (y.face = face ∧ y.endpointId = endpointId)) :
    withCost face endpointId cost (l1 ++ ⟨face, endpointId, c0⟩ :: l2) =
      l1 ++ ⟨face, endpointId, cost⟩ :: l2 := by
  have h1 := withCost_of_none face endpointId cost l1 hfront
  have h2 := withCost_of_none face endpointId cost l2 hback
  unfold withCost at h1 h2 ⊢
  rw [List.map_append, List.map_cons, h1, h2]
  simp [NextHop.setCost]

/-- After `addOrUpdateNextHop(face, endpointId, cost)` the list holds the record
`(face, endpointId, cost)`. -/
theorem mem_addOrUpdateNextHop (S : StdSort) (e : Entry) (face : FaceRef)
    (endpointId : EndpointId) (cost : Nat) :
    (⟨face, endpointId, cost⟩ : NextHop) ∈
      (e.addOrUpdateNextHop S face endpointId cost).1.m_nextHops := by
  rcases findNextHop_cases e face endpointId with ⟨hall, _⟩ | ⟨l1, c0, l2, hl, hfront, _⟩
  · rw [addOrUpdateNextHop_of_absent S e face endpointId cost hall]
    exact (S.perm _).symm.subset (by simp)
  · by_cases hc : c0 = cost
    · subst hc
      rw [addOrUpdateNextHop_of_same S e face endpointId c0 l1 l2 hl hfront, hl]
      simp
    · rw [addOrUpdateNextHop_of_other S e face endpointId cost c0 l1 l2 hl hfront hc]
      exact (S.perm _).symm.subset (by simp)

/-- A call for a record that is already in the list, in a list without two
records of one identity, changes nothing and sends nothing. -/
theorem addOrUpdateNextHop_of_mem (S : StdSort) (e : Entry) (face : FaceRef)
    (endpointId : EndpointId) (cost : Nat) (hnd : NoDupIdentity e.m_nextHops)
    (hmem : (⟨face, endpointId, cost⟩ : NextHop) ∈ e.m_nextHops) :
    e.addOrUpdateNextHop S face endpointId cost = (e, []) := by
  rcases findNextHop_cases e face endpointId with ⟨hall, _⟩ | ⟨l1, c0, l2, hl, hfront, _⟩
  · exact absurd ⟨rfl, rfl⟩ (hall _ hmem)
  · rw [hl] at hnd hmem
    have heq := eq_of_mem_of_noDupIdentity face endpointId c0 l1 l2 hnd hfront _ hmem
      ⟨rfl, rfl⟩
    have hc : cost = c0 := by simpa using heq
    subst hc
    exact addOrUpdateNextHop_of_same S e face endpointId cost l1 l2 hl hfront

/-! ## The walk over the pending requests -/

theorem sendPitEntries_eq (newHop : NextHop) (pes : List pit.Entry) :
    sendPitEntries newHop pes =
      (pes.filter (fun pe => !pe.isSatisfied)).map
        (fun pe => ⟨newHop.face, newHop.endpointId, pe.getInterest⟩) := by
  induction pes with
  | nil => rfl
  | cons pe rest ih =>
    by_cases h : pe.isSatisfied = true
    · simp [sendPitEntries, h, ih]
    · have h' : pe.isSatisfied = false := by simpa using h
      simp [sendPitEntries, h', ih, NextHop.getFace, NextHop.getEndpointId]

mutual
/-- The walk of `sendPendingInterests` from a node sends each unsatisfied
pending request of the subtree once, to the hop. -/
theorem sendPendingInterestsNode_eq (newHop : NextHop) :
    ∀ t : name_tree.Entry, sendPendingInterestsNode newHop t =
      (((t.subtree.map name_tree.Entry.getPitEntries).flatten).filter
        (fun pe => !pe.isSatisfied)).map
        (fun pe => ⟨newHop.face, newHop.endpointId, pe.getInterest⟩)
  | .mk n b sc pes cs => by
    have ih := sendPendingInterestsChildren_eq newHop cs
    by_cases hleaf : (cs.isEmpty && pes.isEmpty) = true
    · simp only [Bool.and_eq_true, List.isEmpty_iff] at hleaf
      obtain ⟨rfl, rfl⟩ := hleaf
      simp [sendPendingInterestsNode, name_tree.Entry.subtree, name_tree.subtreeOfChildren,
        name_tree.Entry.getPitEntries]
    · simp only [sendPendingInterestsNode, hleaf, if_false, Bool.false_eq_true]
      rw [ih, sendPitEntries_eq]
      simp [name_tree.Entry.subtree, name_tree.Entry.getPitEntries]
theorem sendPendingInterestsChildren_eq (newHop : NextHop) :
    ∀ cs : List name_tree.Entry, sendPendingInterestsChildren newHop cs =
      ((((name_tree.subtreeOfChildren cs).map name_tree.Entry.getPitEntries).flatten).filter
        (fun pe => !pe.isSatisfied)).map
        (fun pe => ⟨newHop.face, newHop.endpointId, pe.getInterest⟩)
  | [] => by simp [sendPendingInterestsChildren, name_tree.subtreeOfChildren]
  | c :: cs => by
    have ih1 := sendPendingInterestsNode_eq newHop c
    have ih2 := sendPendingInterestsChildren_eq newHop cs
    simp only [sendPendingInterestsChildren, name_tree.subtreeOfChildren]
    rw [ih1, ih2]
    simp
end

/-- The subtrees of a list of children hold the nodes of the subtree of each
child. -/
theorem mem_subtreeOfChildren (d : name_tree.Entry) (cs : List name_tree.Entry) :
    d ∈ name_tree.subtreeOfChildren cs ↔ ∃ c ∈ cs, d ∈ c.subtree := by
  induction cs with
  | nil => simp [name_tree.subtreeOfChildren]
  | cons c cs ih => simp [name_tree.subtreeOfChildren, ih]

/-- The subtree of a node holds the node and, for each child, the subtree of
the child: every descendant, at any depth. -/
theorem mem_subtree (d t : name_tree.Entry) :
    d ∈ t.subtree ↔ d = t ∨ ∃ c ∈ t.getChildren, d ∈ c.subtree := by
  cases t with
  | mk n b sc pes cs =>
    simp [name_tree.Entry.subtree, mem_subtreeOfChildren, name_tree.Entry.getChildren]

/-- A pending request is among the unsatisfied requests of a subtree when it
is unsatisfied and attached to a node of the subtree. -/
theorem mem_unsatisfiedPending (pe : pit.Entry) (t : name_tree.Entry) :
    pe ∈ t.unsatisfiedPending ↔
      pe.isSatisfied = false ∧ ∃ d ∈ t.subtree, pe ∈ d.getPitEntries := by
  unfold name_tree.Entry.unsatisfiedPending
  rw [List.mem_filter, List.mem_flatten]
  constructor
  · rintro ⟨⟨l, hl, hpe⟩, hsat⟩
    rcases List.mem_map.1 hl with ⟨d, hd, rfl⟩
    exact ⟨by simpa using hsat, d, hd, hpe⟩
  · rintro ⟨hsat, d, hd, hpe⟩
    exact ⟨⟨d.getPitEntries, List.mem_map.2 ⟨d, hd, rfl⟩, hpe⟩, by simp [hsat]⟩

/-! ## The claims -/

/-- C1: after any finite sequence of `addOrUpdateNextHop`, `removeNextHop` and
`removeNextHopByFace` calls on a freshly constructed entry, the list returned by
`getNextHops` is in non-decreasing order of cost.  The sequence may end with a
removal, which does not sort. -/
theorem getNextHops_sorted_of_run (S : StdSort) (pfx : Name) (ops : List Op) :
    ∀ i j : Nat, ∀ a b : NextHop, i < j →
      ((Entry.new pfx).run S ops).getNextHops.get? i = some a →
      ((Entry.new pfx).run S ops).getNextHops.get? j = some b →
      a.getCost ≤ b.getCost := by
  have hs : CostSorted ((Entry.new pfx).run S ops).m_nextHops :=
    run_invariant S CostSorted (step_costSorted S) ops (Entry.new pfx)
      (by simp [Entry.new, CostSorted])
  intro i j a b hij ha hb
  unfold CostSorted at hs
  rw [List.pairwise_iff_get] at hs
  simp only [Entry.getNextHops] at ha hb
  rw [List.get?_eq_some] at ha hb
  obtain ⟨hi, rfl⟩ := ha
  obtain ⟨hj, rfl⟩ := hb
  have := hs ⟨i, hi⟩ ⟨j, hj⟩ hij
  omega

/-- C1 on the example sequence of calls, for insertion sort: the list ends as
`F1` at cost 5 before `F2` at cost 7. -/
theorem getNextHops_sorted_of_run_witness :
    ((Entry.new ["example"]).run insertionSort exampleOps).getNextHops =
      [⟨1, 0, 5⟩, ⟨2, 0, 7⟩] ∧
    0 < 1 ∧
    ((Entry.new ["example"]).run insertionSort exampleOps).getNextHops.get? 0 =
      some ⟨1, 0, 5⟩ ∧
    ((Entry.new ["example"]).run insertionSort exampleOps).getNextHops.get? 1 =
      some ⟨2, 0, 7⟩ ∧
    (⟨1, 0, 5⟩ : NextHop).getCost ≤ (⟨2, 0, 7⟩ : NextHop).getCost :=
  ⟨by decide, by decide, by decide, by decide,
    getNextHops_sorted_of_run insertionSort ["example"] exampleOps 0 1 ⟨1, 0, 5⟩ ⟨2, 0, 7⟩
      (by decide) (by decide) (by decide)⟩

/-- C2: after any finite sequence of `addOrUpdateNextHop`, `removeNextHop` and
`removeNextHopByFace` calls on a freshly constructed entry, no two records of the
next-hop list, at different positions, have the same face and endpoint id. -/
theorem getNextHops_noDupIdentity_of_run (S : StdSort) (pfx : Name) (ops : List Op) :
    ∀ i j : Nat, ∀ a b : NextHop, i ≠ j →
      ((Entry.new pfx).run S ops).getNextHops.get? i = some a →
      ((Entry.new pfx).run S ops).getNextHops.get? j = some b →
      ¬ (a.face = b.face ∧ a.endpointId = b.endpointId) := by
  have hs : NoDupIdentity ((Entry.new pfx).run S ops).m_nextHops :=
    run_invariant S NoDupIdentity (step_noDupIdentity S) ops (Entry.new pfx)
      (by simp [Entry.new, NoDupIdentity])
  have hpair : ((Entry.new pfx).run S ops).m_nextHops.Pairwise
      (fun a b => NextHop.identity a ≠ NextHop.identity b) := by
    unfold NoDupIdentity List.Nodup at hs
    rwa [List.pairwise_map] at hs
  rw [List.pairwise_iff_get] at hpair
  intro i j a b hij ha hb hsame
  simp only [Entry.getNextHops] at ha hb
  rw [List.get?_eq_some] at ha hb
  obtain ⟨hi, rfl⟩ := ha
  obtain ⟨hj, rfl⟩ := hb
  rcases Nat.lt_or_gt_of_ne hij with hlt | hgt
  · apply hpair ⟨i, hi⟩ ⟨j, hj⟩ hlt
    simp only [NextHop.identity, Prod.mk.injEq]
    exact hsame
  · apply hpair ⟨j, hj⟩ ⟨i, hi⟩ hgt
    simp only [NextHop.identity, Prod.mk.injEq]
    exact ⟨hsame.1.symm, hsame.2.symm⟩

/-- C2 on the example sequence of calls, for insertion sort: the two records
left have different identities. -/
theorem getNextHops_noDupIdentity_of_run_witness :
    0 ≠ 1 ∧
    ((Entry.new ["example"]).run insertionSort exampleOps).getNextHops.get? 0 =
      some ⟨1, 0, 5⟩ ∧
    ((Entry.new ["example"]).run insertionSort exampleOps).getNextHops.get? 1 =
      some ⟨2, 0, 7⟩ ∧
    ¬ ((⟨1, 0, 5⟩ : NextHop).face = (⟨2, 0, 7⟩ : NextHop).face ∧
      (⟨1, 0, 5⟩ : NextHop).endpointId = (⟨2, 0, 7⟩ : NextHop).endpointId) :=
  ⟨by decide, by decide, by decide,
    getNextHops_noDupIdentity_of_run insertionSort ["example"] exampleOps 0 1 ⟨1, 0, 5⟩
      ⟨2, 0, 7⟩ (by decide) (by decide) (by decide)⟩

/-- C3: when `hasNextHop` is false for the identity, `addOrUpdateNextHop` yields a
rearrangement of the old list plus the one record `(face, endpointId, cost)`:
the list is one longer, every earlier record is in it as it was, the new record
is in it, and it is in non-decreasing order of cost.  In the example of the
spec, the entry built by adding `F1` at cost 5 and `F2` at cost 2 enumerates as
`F2, F1`, and adding `F3` at cost 1 gives `F3, F2, F1`, whatever the sort does
with ties. -/
theorem addOrUpdateNextHop_absent_spec (S : StdSort) :
    (∀ (e : Entry) (face : FaceRef) (endpointId : EndpointId) (cost : Nat),
      e.hasNextHop face endpointId = false →
        ((e.addOrUpdateNextHop S face endpointId cost).1.getNextHops.Perm
            (e.getNextHops ++ [⟨face, endpointId, cost⟩]) ∧
          (e.addOrUpdateNextHop S face endpointId cost).1.getNextHops.length =
            e.getNextHops.length + 1 ∧
          (∀ x ∈ e.getNextHops, x ∈ (e.addOrUpdateNextHop S face endpointId cost).1.getNextHops) ∧
          (⟨face, endpointId, cost⟩ : NextHop) ∈
            (e.addOrUpdateNextHop S face endpointId cost).1.getNextHops ∧
          CostSorted (e.addOrUpdateNextHop S face endpointId cost).1.getNextHops)) ∧
    (∀ pfx : Name,
      ((Entry.new pfx).run S [Op.addOrUpdateNextHop 1 0 5,
          Op.addOrUpdateNextHop 2 0 2]).getNextHops = [⟨2, 0, 2⟩, ⟨1, 0, 5⟩] ∧
      (((Entry.new pfx).run S [Op.addOrUpdateNextHop 1 0 5,
          Op.addOrUpdateNextHop 2 0 2]).addOrUpdateNextHop S 3 0 1).1.getNextHops =
        [⟨3, 0, 1⟩, ⟨2, 0, 2⟩, ⟨1, 0, 5⟩]) := by
  constructor
  · intro e face endpointId cost h
    rw [hasNextHop_eq_false_iff] at h
    rw [addOrUpdateNextHop_of_absent S e face endpointId cost h]
    simp only [Entry.getNextHops]
    have hp := S.perm (e.m_nextHops ++ [⟨face, endpointId, cost⟩])
    refine ⟨hp, ?_, ?_, ?_, S.sorted _⟩
    · rw [hp.length_eq]; simp
    · intro x hx
      exact hp.symm.subset (by simp [hx])
    · exact hp.symm.subset (by simp)
  · intro pfx
    have h1 : ((Entry.new pfx).addOrUpdateNextHop S 1 0 5).1 =
        { Entry.new pfx with m_nextHops := [⟨1, 0, 5⟩] } := by
      rw [addOrUpdateNextHop_of_absent S (Entry.new pfx) 1 0 5 (by simp [Entry.new])]
      simp only [Entry.new, List.nil_append]
      rw [sort_eq_of_strictly_increasing S _ [⟨1, 0, 5⟩] (List.Perm.refl _) (by simp)]
    have h2 : ((Entry.new pfx).run S [Op.addOrUpdateNextHop 1 0 5,
        Op.addOrUpdateNextHop 2 0 2]) =
        { Entry.new pfx with m_nextHops := [⟨2, 0, 2⟩, ⟨1, 0, 5⟩] } := by
      simp only [Entry.run, List.foldl_cons, List.foldl_nil, Entry.step, h1]
      rw [addOrUpdateNextHop_of_absent S _ 2 0 2 (by simp)]
      simp only [List.singleton_append]
      rw [sort_eq_of_strictly_increasing S _ [⟨2, 0, 2⟩, ⟨1, 0, 5⟩]
        (List.Perm.swap _ _ _) (by simp)]
    rw [h2]
    refine ⟨rfl, ?_⟩
    rw [addOrUpdateNextHop_of_absent S _ 3 0 1 (by simp)]
    simp only [Entry.getNextHops, List.cons_append, List.nil_append]
    exact sort_eq_of_strictly_increasing S _ [⟨3, 0, 1⟩, ⟨2, 0, 2⟩, ⟨1, 0, 5⟩]
      (by decide) (by simp)

/-- The first part of C3 at the entry of the example, for insertion sort: the
identity `(F3, 0)` is absent and the call adds it. -/
theorem addOrUpdateNextHop_absent_spec_witness :
    exampleEntry.hasNextHop 3 0 = false ∧
    ((exampleEntry.addOrUpdateNextHop insertionSort 3 0 1).1.getNextHops.Perm
        (exampleEntry.getNextHops ++ [⟨3, 0, 1⟩]) ∧
      (exampleEntry.addOrUpdateNextHop insertionSort 3 0 1).1.getNextHops.length =
        exampleEntry.getNextHops.length + 1 ∧
      (∀ x ∈ exampleEntry.getNextHops,
        x ∈ (exampleEntry.addOrUpdateNextHop insertionSort 3 0 1).1.getNextHops) ∧
      (⟨3, 0, 1⟩ : NextHop) ∈
        (exampleEntry.addOrUpdateNextHop insertionSort 3 0 1).1.getNextHops ∧
      CostSorted (exampleEntry.addOrUpdateNextHop insertionSort 3 0 1).1.getNextHops) :=
  ⟨by decide, (addOrUpdateNextHop_absent_spec insertionSort).1 exampleEntry 3 0 1 (by decide)⟩

/-- C4: when the entry holds a record for `(face, endpointId)` whose cost is not
`cost`, `addOrUpdateNextHop(face, endpointId, cost)` keeps the size of the list
and its identities, gives that record the cost `cost`, leaves every other
record as it was, and leaves the list in non-decreasing order of cost.  The
entry is one in which an identity has at most one record, as every entry
is (C2). -/
theorem addOrUpdateNextHop_update_spec (S : StdSort) (e : Entry) (face : FaceRef)
    (endpointId : EndpointId) (cost : Nat) (hnd : NoDupIdentity e.getNextHops)
    (hex : ∃ x ∈ e.getNextHops, x.face = face ∧ x.endpointId = endpointId ∧ x.cost ≠ cost) :
    (e.addOrUpdateNextHop S face endpointId cost).1.getNextHops.length =
        e.getNextHops.length ∧
      ((e.addOrUpdateNextHop S face endpointId cost).1.getNextHops.map NextHop.identity).Perm
        (e.getNextHops.map NextHop.identity) ∧
      (e.addOrUpdateNextHop S face endpointId cost).1.getNextHops.Perm
        (withCost face endpointId cost e.getNextHops) ∧
      (⟨face, endpointId, cost⟩ : NextHop) ∈
        (e.addOrUpdateNextHop S face endpointId cost).1.getNextHops ∧
      (∀ x ∈ (e.addOrUpdateNextHop S face endpointId cost).1.getNextHops,
        x.face = face → x.endpointId = endpointId → x.cost = cost) ∧
      (∀ x : NextHop, ¬ (x.face = face ∧ x.endpointId = endpointId) →
        (x ∈ (e.addOrUpdateNextHop S face endpointId cost).1.getNextHops ↔
          x ∈ e.getNextHops)) ∧
      CostSorted (e.addOrUpdateNextHop S face endpointId cost).1.getNextHops := by
  simp only [Entry.getNextHops] at hnd hex ⊢
  obtain ⟨x, hx, hxf, hxe, hxc⟩ := hex
  rcases findNextHop_cases e face endpointId with ⟨hall, _⟩ | ⟨l1, c0, l2, hl, hfront, _⟩
  · exact absurd ⟨hxf, hxe⟩ (hall x hx)
  · rw [hl] at hnd hx
    have hback := noDupIdentity_back face endpointId c0 l1 l2 hnd
    have heq := eq_of_mem_of_noDupIdentity face endpointId c0 l1 l2 hnd hfront x hx
      ⟨hxf, hxe⟩
    have hc : c0 ≠ cost := by
      intro h
      apply hxc
      rw [heq]
      exact h
    rw [addOrUpdateNextHop_of_other S e face endpointId cost c0 l1 l2 hl hfront hc, hl,
      withCost_of_split face endpointId cost c0 l1 l2 hfront hback]
    have hp := S.perm (l1 ++ ⟨face, endpointId, cost⟩ :: l2)
    refine ⟨?_, ?_, hp, hp.symm.subset (by simp), ?_, ?_, S.sorted _⟩
    · rw [hp.length_eq]; simp
    · refine (hp.map NextHop.identity).trans ?_
      simp [NextHop.identity]
    · intro y hy hyf hye
      have hy' := hp.subset hy
      rcases List.mem_append.1 hy' with h1 | h2
      · exact absurd ⟨hyf, hye⟩ (hfront y h1)
      · rcases List.mem_cons.1 h2 with rfl | h3
        · rfl
        · exact absurd ⟨hyf, hye⟩ (hback y h3)
    · intro y hy
      rw [hp.mem_iff]
      simp only [List.mem_append, List.mem_cons]
      constructor
      · rintro (h | rfl | h)
        · exact Or.inl h
        · exact absurd ⟨rfl, rfl⟩ hy
        · exact Or.inr (Or.inr h)
      · rintro (h | rfl | h)
        · exact Or.inl h
        · exact absurd ⟨rfl, rfl⟩ hy
        · exact Or.inr (Or.inr h)

/-- C4 at the entry of the example, for insertion sort: the record of `(F2, 0)`
costs 2 and is given the cost 9. -/
theorem addOrUpdateNextHop_update_spec_witness :
    NoDupIdentity exampleEntry.getNextHops ∧
    (∃ x ∈ exampleEntry.getNextHops, x.face = 2 ∧ x.endpointId = 0 ∧ x.cost ≠ 9) ∧
    (exampleEntry.addOrUpdateNextHop insertionSort 2 0 9).1.getNextHops =
      [⟨1, 0, 5⟩, ⟨2, 0, 9⟩] ∧
    ((exampleEntry.addOrUpdateNextHop insertionSort 2 0 9).1.getNextHops.length =
        exampleEntry.getNextHops.length ∧
      ((exampleEntry.addOrUpdateNextHop insertionSort 2 0 9).1.getNextHops.map
          NextHop.identity).Perm (exampleEntry.getNextHops.map NextHop.identity) ∧
      (exampleEntry.addOrUpdateNextHop insertionSort 2 0 9).1.getNextHops.Perm
        (withCost 2 0 9 exampleEntry.getNextHops) ∧
      (⟨2, 0, 9⟩ : NextHop) ∈
        (exampleEntry.addOrUpdateNextHop insertionSort 2 0 9).1.getNextHops ∧
      (∀ x ∈ (exampleEntry.addOrUpdateNextHop insertionSort 2 0 9).1.getNextHops,
        x.face = 2 → x.endpointId = 0 → x.cost = 9) ∧
      (∀ x : NextHop, ¬ (x.face = 2 ∧ x.endpointId = 0) →
        (x ∈ (exampleEntry.addOrUpdateNextHop insertionSort 2 0 9).1.getNextHops ↔
          x ∈ exampleEntry.getNextHops)) ∧
      CostSorted (exampleEntry.addOrUpdateNextHop insertionSort 2 0 9).1.getNextHops) :=
  ⟨by decide, ⟨⟨2, 0, 2⟩, by decide, by decide⟩, by decide,
    addOrUpdateNextHop_update_spec insertionSort exampleEntry 2 0 9 (by decide)
      ⟨⟨2, 0, 2⟩, by decide, by decide⟩⟩

/-- C5: `addOrUpdateNextHop` is idempotent.  A second call with the same
arguments right after the first returns the entry of the first call unchanged
(contents, order and size of the list) and sends nothing; and whenever the
entry already holds a record of that identity with that cost, the call changes
nothing and sends nothing.  The entry is one in which an identity has at most
one record, as every entry is (C2). -/
theorem addOrUpdateNextHop_idempotent (S : StdSort) (e : Entry) (face : FaceRef)
    (endpointId : EndpointId) (cost : Nat) (hnd : NoDupIdentity e.getNextHops) :
    (e.addOrUpdateNextHop S face endpointId cost).1.addOrUpdateNextHop S face endpointId cost =
        ((e.addOrUpdateNextHop S face endpointId cost).1, []) ∧
      ((∃ x ∈ e.getNextHops, x.face = face ∧ x.endpointId = endpointId ∧ x.cost = cost) →
        e.addOrUpdateNextHop S face endpointId cost = (e, [])) := by
  simp only [Entry.getNextHops] at hnd ⊢
  constructor
  · exact addOrUpdateNextHop_of_mem S _ face endpointId cost
      (step_noDupIdentity S e (Op.addOrUpdateNextHop face endpointId cost) hnd)
      (mem_addOrUpdateNextHop S e face endpointId cost)
  · rintro ⟨x, hx, hxf, hxe, hxc⟩
    apply addOrUpdateNextHop_of_mem S e face endpointId cost hnd
    obtain ⟨xf, xe, xc⟩ := x
    simp only at hxf hxe hxc
    subst hxf hxe hxc
    exact hx

/-- C5 at the entry of the example in its trie, for insertion sort: `(F2, 0)` is
there at cost 2, and adding it at cost 2 changes nothing and sends nothing,
although requests are pending below the owning node. -/
theorem addOrUpdateNextHop_idempotent_witness :
    NoDupIdentity exampleEntryInTree.getNextHops ∧
    (∃ x ∈ exampleEntryInTree.getNextHops, x.face = 2 ∧ x.endpointId = 0 ∧ x.cost = 2) ∧
    exampleEntryInTree.addOrUpdateNextHop insertionSort 2 0 2 = (exampleEntryInTree, []) ∧
    (exampleEntryInTree.addOrUpdateNextHop insertionSort 2 0 2).1.addOrUpdateNextHop
        insertionSort 2 0 2 =
      ((exampleEntryInTree.addOrUpdateNextHop insertionSort 2 0 2).1, []) :=
  ⟨by decide, ⟨⟨2, 0, 2⟩, by decide, by decide⟩,
    (addOrUpdateNextHop_idempotent insertionSort exampleEntryInTree 2 0 2 (by decide)).2
      ⟨⟨2, 0, 2⟩, by decide, by decide⟩,
    (addOrUpdateNextHop_idempotent insertionSort exampleEntryInTree 2 0 2 (by decide)).1⟩

/-- C6: when no record of the identity already has the cost, so that
`addOrUpdateNextHop(face, endpointId, cost)` adds a record or changes a cost,
and the entry has an owning name-tree node, the sends of the call are one
`sendInterest` for each pending request with `isSatisfied = false` at the
owning node or at a descendant of it at any depth, in the order of the walk,
each to `(face, endpointId)` with the interest of the request.  Satisfied
requests are not sent, whether a node owns a FIB entry of its own plays no
role, and the early return loses no request. -/
theorem addOrUpdateNextHop_sends (S : StdSort) (e : Entry) (face : FaceRef)
    (endpointId : EndpointId) (cost : Nat) (nte : name_tree.Entry)
    (hnte : e.m_nameTreeEntry = some nte)
    (hchg : ∀ x ∈ e.getNextHops, x.face = face → x.endpointId = endpointId → x.cost ≠ cost) :
    (e.addOrUpdateNextHop S face endpointId cost).2 =
      nte.unsatisfiedPending.map (fun pe => ⟨face, endpointId, pe.getInterest⟩) := by
  have hsend : Entry.sendPendingInterests e.m_nameTreeEntry ⟨face, endpointId, cost⟩ =
      nte.unsatisfiedPending.map (fun pe => ⟨face, endpointId, pe.getInterest⟩) := by
    rw [hnte]
    simp only [Entry.sendPendingInterests]
    rw [sendPendingInterestsNode_eq]
    rfl
  rcases findNextHop_cases e face endpointId with ⟨hall, _⟩ | ⟨l1, c0, l2, hl, hfront, _⟩
  · rw [addOrUpdateNextHop_of_absent S e face endpointId cost hall]
    exact hsend
  · have hc : c0 ≠ cost :=
      hchg ⟨face, endpointId, c0⟩ (by simp [Entry.getNextHops, hl]) rfl rfl
    rw [addOrUpdateNextHop_of_other S e face endpointId cost c0 l1 l2 hl hfront hc]
    exact hsend

/-- C6 at the entry of the example in its trie, for insertion sort: adding
`(F3, 7)` sends the three unsatisfied requests of the subtree, the ones below
the child that owns a FIB entry included, and not the satisfied one. -/
theorem addOrUpdateNextHop_sends_witness :
    exampleEntryInTree.m_nameTreeEntry = some exampleTree ∧
    (∀ x ∈ exampleEntryInTree.getNextHops, x.face = 3 → x.endpointId = 7 → x.cost ≠ 1) ∧
    (exampleEntryInTree.addOrUpdateNextHop insertionSort 3 7 1).2 =
      exampleTree.unsatisfiedPending.map (fun pe => ⟨3, 7, pe.getInterest⟩) ∧
    (exampleEntryInTree.addOrUpdateNextHop insertionSort 3 7 1).2 =
      [⟨3, 7, ⟨["a", "1"], 11⟩⟩, ⟨3, 7, ⟨["a", "b", "1"], 13⟩⟩,
        ⟨3, 7, ⟨["a", "b", "c", "1"], 14⟩⟩] :=
  ⟨rfl, by decide,
    addOrUpdateNextHop_sends insertionSort exampleEntryInTree 3 7 1 exampleTree rfl
      (by decide),
    by decide⟩

/-- C7: `removeNextHopByFace(L)` leaves the old list filtered to the records
whose face is not `L`: every record of `L` is gone whatever its endpoint id,
every other record is kept as it was, and the kept records are in their old
relative order. -/
theorem removeNextHopByFace_spec (e : Entry) (face : FaceRef) :
    (e.removeNextHopByFace face).getNextHops =
        e.getNextHops.filter (fun x => decide (x.face ≠ face)) ∧
      (∀ x : NextHop, x ∈ (e.removeNextHopByFace face).getNextHops ↔
        x ∈ e.getNextHops ∧ x.face ≠ face) ∧
      (e.removeNextHopByFace face).getNextHops.Sublist e.getNextHops := by
  have h : (e.removeNextHopByFace face).getNextHops =
      e.getNextHops.filter (fun x => decide (x.face ≠ face)) := by
    simp only [Entry.getNextHops]
    rw [removeNextHopByFace_nextHops]
    congr 1
    funext x
    simp [NextHop.getFace]
  refine ⟨h, ?_, ?_⟩
  · intro x
    rw [h, List.mem_filter]
    simp
  · rw [h]
    exact List.filter_sublist _

/-- C8: when `hasNextHop(face, endpointId)` is false, `removeNextHop` leaves the
entry as it is; when it is true, `removeNextHop` deletes one record of that
identity (the first), the list is one shorter, and every other record is kept
as it was and in its old relative order. -/
theorem removeNextHop_spec (e : Entry) (face : FaceRef) (endpointId : EndpointId) :
    (e.hasNextHop face endpointId = false → e.removeNextHop face endpointId = e) ∧
    (e.hasNextHop face endpointId = true →
      ∃ (l1 : NextHopList) (x : NextHop) (l2 : NextHopList),
        e.getNextHops = l1 ++ x :: l2 ∧ x.face = face ∧ x.endpointId = endpointId ∧
        (∀ y ∈ l1, ¬ (y.face = face ∧ y.endpointId = endpointId)) ∧
        (e.removeNextHop face endpointId).getNextHops = l1 ++ l2 ∧
        (e.removeNextHop face endpointId).getNextHops.length + 1 = e.getNextHops.length) := by
  constructor
  · intro h
    rw [hasNextHop_eq_false_iff] at h
    exact removeNextHop_of_absent e face endpointId h
  · intro h
    rw [hasNextHop_eq_true_iff] at h
    obtain ⟨x, hx, hxf, hxe⟩ := h
    rcases findNextHop_cases e face endpointId with ⟨hall, _⟩ | ⟨l1, c0, l2, hl, hfront, _⟩
    · exact absurd ⟨hxf, hxe⟩ (hall x hx)
    · refine ⟨l1, ⟨face, endpointId, c0⟩, l2, hl, rfl, rfl, hfront, ?_, ?_⟩
      · rw [removeNextHop_of_split e face endpointId c0 l1 l2 hl hfront]
        rfl
      · rw [removeNextHop_of_split e face endpointId c0 l1 l2 hl hfront]
        simp only [Entry.getNextHops, hl, List.length_append, List.length_cons]
        omega

/-- C8 at the entry of the example: `(F2, 0)` is there and is removed, `(F2, 1)`
is not there. -/
theorem removeNextHop_spec_witness :
    exampleEntry.hasNextHop 2 1 = false ∧
    (exampleEntry.removeNextHop 2 1).getNextHops = exampleEntry.getNextHops ∧
    exampleEntry.hasNextHop 2 0 = true ∧
    (exampleEntry.removeNextHop 2 0).getNextHops = [⟨1, 0, 5⟩] ∧
    (∃ (l1 : NextHopList) (x : NextHop) (l2 : NextHopList),
      exampleEntry.getNextHops = l1 ++ x :: l2 ∧ x.face = 2 ∧ x.endpointId = 0 ∧
      (∀ y ∈ l1, ¬ (y.face = 2 ∧ y.endpointId = 0)) ∧
      (exampleEntry.removeNextHop 2 0).getNextHops = l1 ++ l2 ∧
      (exampleEntry.removeNextHop 2 0).getNextHops.length + 1 =
        exampleEntry.getNextHops.length) :=
  ⟨by decide, by rw [(removeNextHop_spec exampleEntry 2 1).1 (by decide)], by decide,
    by decide, (removeNextHop_spec exampleEntry 2 0).2 (by decide)⟩

/-! ## Lookup, frame and redistribution -/

/-- A record of another identity is in the list after `addOrUpdateNextHop` exactly
when it was in it before. -/
theorem mem_addOrUpdateNextHop_of_ne (S : StdSort) (e : Entry) (face : FaceRef)
    (endpointId : EndpointId) (cost : Nat) (x : NextHop)
    (hx : ¬ (x.face = face ∧ x.endpointId = endpointId)) :
    x ∈ (e.addOrUpdateNextHop S face endpointId cost).1.m_nextHops ↔ x ∈ e.m_nextHops := by
  rcases findNextHop_cases e face endpointId with ⟨hall, _⟩ | ⟨l1, c0, l2, hl, hfront, _⟩
  · rw [addOrUpdateNextHop_of_absent S e face endpointId cost hall]
    simp only
    rw [(S.perm _).mem_iff, List.mem_append, List.mem_singleton]
    constructor
    · rintro (h | rfl)
      · exact h
      · exact absurd ⟨rfl, rfl⟩ hx
    · exact Or.inl
  · by_cases hc : c0 = cost
    · subst hc
      rw [addOrUpdateNextHop_of_same S e face endpointId c0 l1 l2 hl hfront]
    · rw [addOrUpdateNextHop_of_other S e face endpointId cost c0 l1 l2 hl hfront hc, hl]
      simp only
      rw [(S.perm _).mem_iff]
      simp only [List.mem_append, List.mem_cons]
      constructor
      · rintro (h | rfl | h)
        · exact Or.inl h
        · exact absurd ⟨rfl, rfl⟩ hx
        · exact Or.inr (Or.inr h)
      · rintro (h | rfl | h)
        · exact Or.inl h
        · exact absurd ⟨rfl, rfl⟩ hx
        · exact Or.inr (Or.inr h)

/-- A record of another identity is in the list after `removeNextHop` exactly when
it was in it before. -/
theorem mem_removeNextHop_of_ne (e : Entry) (face : FaceRef) (endpointId : EndpointId)
    (x : NextHop) (hx : ¬ (x.face = face ∧ x.endpointId = endpointId)) :
    x ∈ (e.removeNextHop face endpointId).m_nextHops ↔ x ∈ e.m_nextHops := by
  rcases findNextHop_cases e face endpointId with ⟨hall, _⟩ | ⟨l1, c0, l2, hl, hfront, _⟩
  · rw [removeNextHop_of_absent e face endpointId hall]
  · rw [removeNextHop_of_split e face endpointId c0 l1 l2 hl hfront, hl]
    simp only [List.mem_append, List.mem_cons]
    constructor
    · rintro (h | h)
      · exact Or.inl h
      · exact Or.inr (Or.inr h)
    · rintro (h | rfl | h)
      · exact Or.inl h
      · exact absurd ⟨rfl, rfl⟩ hx
      · exact Or.inr h

/-- A record is in the list after `removeNextHopByFace(face)` exactly when it was
in it before and its face is another one. -/
theorem mem_removeNextHopByFace (e : Entry) (face : FaceRef) (x : NextHop) :
    x ∈ (e.removeNextHopByFace face).m_nextHops ↔ x ∈ e.m_nextHops ∧ x.face ≠ face := by
  rw [removeNextHopByFace_nextHops, List.mem_filter]
  simp [NextHop.getFace]

/-- Two entries whose lists hold the same records of an identity answer
`hasNextHop` for it alike. -/
theorem hasNextHop_congr (e1 e2 : Entry) (face : FaceRef) (endpointId : EndpointId)
    (h : ∀ x : NextHop, x.face = face → x.endpointId = endpointId →
      (x ∈ e1.m_nextHops ↔ x ∈ e2.m_nextHops)) :
    e1.hasNextHop face endpointId = e2.hasNextHop face endpointId := by
  rw [Bool.eq_iff_iff, hasNextHop_eq_true_iff, hasNextHop_eq_true_iff]
  constructor
  · rintro ⟨x, hx, hf, he⟩
    exact ⟨x, (h x hf he).1 hx, hf, he⟩
  · rintro ⟨x, hx, hf, he⟩
    exact ⟨x, (h x hf he).2 hx, hf, he⟩

/-- C13: removal never redistributes.  Whatever the entry, its owning node and
the pending requests below it, the calls `removeNextHop` and
`removeNextHopByFace` send no interest, and they leave the owning node of the
entry as it is.  On the entry of the example in its trie, where adding a next
hop sends interests, the removals send none. -/
theorem removal_sends_nothing :
    (∀ (S : StdSort) (e : Entry) (face : FaceRef) (endpointId : EndpointId),
      (e.call S (Op.removeNextHop face endpointId)).2 = [] ∧
      (e.call S (Op.removeNextHopByFace face)).2 = [] ∧
      (e.call S (Op.removeNextHop face endpointId)).1 = e.removeNextHop face endpointId ∧
      (e.call S (Op.removeNextHopByFace face)).1 = e.removeNextHopByFace face) ∧
    (exampleEntryInTree.call insertionSort (Op.addOrUpdateNextHop 3 7 1)).2.length = 3 ∧
    (exampleEntryInTree.call insertionSort (Op.removeNextHop 2 0)).2 = [] ∧
    (exampleEntryInTree.call insertionSort (Op.removeNextHopByFace 2)).2 = [] := by
  refine ⟨?_, by decide, rfl, rfl⟩
  intro S e face endpointId
  exact ⟨rfl, rfl, rfl, rfl⟩

/-- C14: on every entry reached from a freshly constructed one by a sequence of
calls, `hasNextHop` agrees with the mutators: after
`addOrUpdateNextHop(face, e, c)` it is true for `(face, e)`; after
`removeNextHop(face, e)` it is false for `(face, e)`, although only the first
record of the identity is erased; after `removeNextHopByFace(face)` it is false
for `(face, e)` whatever `e` is. -/
theorem hasNextHop_after_mutation (S : StdSort) (pfx : Name) (ops : List Op) :
    (∀ (face : FaceRef) (endpointId : EndpointId) (cost : Nat),
      (((Entry.new pfx).run S ops).addOrUpdateNextHop S face endpointId cost).1.hasNextHop
        face endpointId = true) ∧
    (∀ (face : FaceRef) (endpointId : EndpointId),
      (((Entry.new pfx).run S ops).removeNextHop face endpointId).hasNextHop
        face endpointId = false) ∧
    (∀ (face : FaceRef) (endpointId : EndpointId),
      (((Entry.new pfx).run S ops).removeNextHopByFace face).hasNextHop
        face endpointId = false) := by
  have hnd : NoDupIdentity ((Entry.new pfx).run S ops).m_nextHops :=
    run_invariant S NoDupIdentity (step_noDupIdentity S) ops (Entry.new pfx)
      (by simp [Entry.new, NoDupIdentity])
  generalize (Entry.new pfx).run S ops = e at hnd
  refine ⟨?_, ?_, ?_⟩
  · intro face endpointId cost
    rw [hasNextHop_eq_true_iff]
    exact ⟨⟨face, endpointId, cost⟩, mem_addOrUpdateNextHop S e face endpointId cost, rfl, rfl⟩
  · intro face endpointId
    rw [hasNextHop_eq_false_iff]
    rcases findNextHop_cases e face endpointId with ⟨hall, _⟩ | ⟨l1, c0, l2, hl, hfront, _⟩
    · rw [removeNextHop_of_absent e face endpointId hall]
      exact hall
    · rw [removeNextHop_of_split e face endpointId c0 l1 l2 hl hfront]
      rw [hl] at hnd
      intro x hx
      rcases List.mem_append.1 hx with h1 | h2
      · exact hfront x h1
      · exact noDupIdentity_back face endpointId c0 l1 l2 hnd x h2
  · intro face endpointId
    rw [hasNextHop_eq_false_iff]
    intro x hx hsame
    exact ((mem_removeNextHopByFace e face x).1 hx).2 hsame.1

/-- C15, the claim as stated fails: the node `satisfiedNode` has a PIT entry
attached, and `sendPendingInterests` on it sends nothing, since the entry is
satisfied. -/
theorem sendPendingInterests_all_counterexample :
    (⟨⟨["s", "1"], 21⟩, true⟩ : pit.Entry) ∈ satisfiedNode.getPitEntries ∧
    (⟨1, 0, ⟨["s", "1"], 21⟩⟩ : SentInterest) ∉
      Entry.sendPendingInterests (some satisfiedNode) ⟨1, 0, 5⟩ ∧
    Entry.sendPendingInterests (some satisfiedNode) ⟨1, 0, 5⟩ = [] := by
  decide

/-- C15, amended: for every non-null `nte`, every PIT entry with
`isSatisfied = false` attached to `nte` or to a child of `nte` results in a
`sendInterest` of its interest to the face and endpoint id of `newHop`; every
send is of an unsatisfied PIT entry of the subtree of `nte`; the sends are, one
for one and in the order of the walk, the unsatisfied PIT entries of the
subtree; and a satisfied PIT entry is not sent: when every PIT entry of the
subtree is satisfied, nothing is sent.  None of the four parts depends on
another. -/
theorem sendPendingInterests_unsatisfied (nte : name_tree.Entry) (newHop : NextHop) :
    (∀ pe : pit.Entry, pe.isSatisfied = false →
      (pe ∈ nte.getPitEntries ∨ ∃ c ∈ nte.getChildren, pe ∈ c.getPitEntries) →
        (⟨newHop.face, newHop.endpointId, pe.getInterest⟩ : SentInterest) ∈
          Entry.sendPendingInterests (some nte) newHop) ∧
    (∀ s ∈ Entry.sendPendingInterests (some nte) newHop,
      ∃ q : pit.Entry, q.isSatisfied = false ∧ (∃ d ∈ nte.subtree, q ∈ d.getPitEntries) ∧
        s = ⟨newHop.face, newHop.endpointId, q.getInterest⟩) ∧
    Entry.sendPendingInterests (some nte) newHop =
      (((nte.subtree.map name_tree.Entry.getPitEntries).flatten).filter
        (fun q => !q.isSatisfied)).map
        (fun q => ⟨newHop.face, newHop.endpointId, q.getInterest⟩) ∧
    ((∀ d ∈ nte.subtree, ∀ q ∈ d.getPitEntries, q.isSatisfied = true) →
      Entry.sendPendingInterests (some nte) newHop = []) := by
  have hsend : Entry.sendPendingInterests (some nte) newHop =
      nte.unsatisfiedPending.map (fun q => ⟨newHop.face, newHop.endpointId, q.getInterest⟩) := by
    simp only [Entry.sendPendingInterests]
    rw [sendPendingInterestsNode_eq]
    rfl
  refine ⟨?_, ?_, ?_, ?_⟩
  · intro pe hpe hat
    rw [hsend]
    apply List.mem_map.2
    refine ⟨pe, ?_, rfl⟩
    rw [mem_unsatisfiedPending]
    refine ⟨hpe, ?_⟩
    rcases hat with h | ⟨c, hc, h⟩
    · exact ⟨nte, (mem_subtree nte nte).2 (Or.inl rfl), h⟩
    · exact ⟨c, (mem_subtree c nte).2 (Or.inr ⟨c, hc, (mem_subtree c c).2 (Or.inl rfl)⟩), h⟩
  · intro s hs
    rw [hsend] at hs
    rcases List.mem_map.1 hs with ⟨q, hq, rfl⟩
    rw [mem_unsatisfiedPending] at hq
    exact ⟨q, hq.1, hq.2, rfl⟩
  · rw [hsend]
    rfl
  · intro hall
    rw [hsend]
    have hnil : nte.unsatisfiedPending = [] := by
      rw [List.eq_nil_iff_forall_not_mem]
      intro q hq
      rw [mem_unsatisfiedPending] at hq
      obtain ⟨hsat, d, hd, hqd⟩ := hq
      have := hall d hd q hqd
      rw [hsat] at this
      exact Bool.false_ne_true this
    rw [hnil]
    rfl

/-- C15, amended, on the trie of the example and on the node whose one PIT
entry is satisfied: the unsatisfied request of the child `/a/b` is sent to the
hop, the sends on the trie are its three unsatisfied requests and not the
satisfied one, and on the node with the satisfied entry nothing is sent. -/
theorem sendPendingInterests_unsatisfied_witness :
    (⟨⟨["a", "b", "1"], 13⟩, false⟩ : pit.Entry).isSatisfied = false ∧
    ((⟨⟨["a", "b", "1"], 13⟩, false⟩ : pit.Entry) ∈ exampleTree.getPitEntries ∨
      ∃ c ∈ exampleTree.getChildren,
        (⟨⟨["a", "b", "1"], 13⟩, false⟩ : pit.Entry) ∈ c.getPitEntries) ∧
    (⟨3, 7, ⟨["a", "b", "1"], 13⟩⟩ : SentInterest) ∈
      Entry.sendPendingInterests (some exampleTree) ⟨3, 7, 1⟩ ∧
    Entry.sendPendingInterests (some exampleTree) ⟨3, 7, 1⟩ =
      [⟨3, 7, ⟨["a", "1"], 11⟩⟩, ⟨3, 7, ⟨["a", "b", "1"], 13⟩⟩,
        ⟨3, 7, ⟨["a", "b", "c", "1"], 14⟩⟩] ∧
    (∀ d ∈ satisfiedNode.subtree, ∀ q ∈ d.getPitEntries, q.isSatisfied = true) ∧
    Entry.sendPendingInterests (some satisfiedNode) ⟨3, 7, 1⟩ = [] :=
  ⟨rfl,
    Or.inr ⟨.mk ["a", "b"] true none [⟨⟨["a", "b", "1"], 13⟩, false⟩]
        [.mk ["a", "b", "c"] false none [⟨⟨["a", "b", "c", "1"], 14⟩, false⟩] []],
      by simp [exampleTree, name_tree.Entry.getChildren],
      by simp [name_tree.Entry.getPitEntries]⟩,
    (sendPendingInterests_unsatisfied exampleTree ⟨3, 7, 1⟩).1 ⟨⟨["a", "b", "1"], 13⟩, false⟩ rfl
      (Or.inr ⟨.mk ["a", "b"] true none [⟨⟨["a", "b", "1"], 13⟩, false⟩]
          [.mk ["a", "b", "c"] false none [⟨⟨["a", "b", "c", "1"], 14⟩, false⟩] []],
        by simp [exampleTree, name_tree.Entry.getChildren],
        by simp [name_tree.Entry.getPitEntries]⟩),
    by decide,
    by simp [satisfiedNode, name_tree.Entry.subtree, name_tree.subtreeOfChildren,
      name_tree.Entry.getPitEntries],
    (sendPendingInterests_unsatisfied satisfiedNode ⟨3, 7, 1⟩).2.2.2
      (by simp [satisfiedNode, name_tree.Entry.subtree, name_tree.subtreeOfChildren,
        name_tree.Entry.getPitEntries])⟩

/-- The next-hop list after `addOrUpdateNextHop` does not depend on the owning
node of the entry. -/
theorem addOrUpdateNextHop_nextHops_of_node (S : StdSort) (e : Entry) (face : FaceRef)
    (endpointId : EndpointId) (cost : Nat) (nte : Option name_tree.Entry) :
    (({ e with m_nameTreeEntry := nte } : Entry).addOrUpdateNextHop S face endpointId
        cost).1.m_nextHops =
      (e.addOrUpdateNextHop S face endpointId cost).1.m_nextHops := by
  rcases findNextHop_cases e face endpointId with ⟨hall, _⟩ | ⟨l1, c0, l2, hl, hfront, _⟩
  · rw [addOrUpdateNextHop_of_absent S e face endpointId cost hall,
      addOrUpdateNextHop_of_absent S { e with m_nameTreeEntry := nte } face endpointId cost
        hall]
  · by_cases hc : c0 = cost
    · subst hc
      rw [addOrUpdateNextHop_of_same S e face endpointId c0 l1 l2 hl hfront,
        addOrUpdateNextHop_of_same S { e with m_nameTreeEntry := nte } face endpointId c0
          l1 l2 hl hfront]
    · rw [addOrUpdateNextHop_of_other S e face endpointId cost c0 l1 l2 hl hfront hc,
        addOrUpdateNextHop_of_other S { e with m_nameTreeEntry := nte } face endpointId cost
          c0 l1 l2 hl hfront hc]

/-- C17: when the owning name-tree node of the entry is unset,
`addOrUpdateNextHop` sends no interest, whatever its arguments, and leaves the
node unset; the next-hop list it produces is the one it produces when the node
is set, to any node: the record is added or its cost updated, and the list is
sorted, all the same. -/
theorem addOrUpdateNextHop_without_node (S : StdSort) (e : Entry) (face : FaceRef)
    (endpointId : EndpointId) (cost : Nat) (hnull : e.m_nameTreeEntry = none) :
    (e.addOrUpdateNextHop S face endpointId cost).2 = [] ∧
      (e.addOrUpdateNextHop S face endpointId cost).1.m_nameTreeEntry = none ∧
      (∀ nte : name_tree.Entry,
        (({ e with m_nameTreeEntry := some nte } : Entry).addOrUpdateNextHop S face endpointId
            cost).1.getNextHops =
          (e.addOrUpdateNextHop S face endpointId cost).1.getNextHops) ∧
      (⟨face, endpointId, cost⟩ : NextHop) ∈
        (e.addOrUpdateNextHop S face endpointId cost).1.getNextHops := by
  refine ⟨?_, ?_, ?_, mem_addOrUpdateNextHop S e face endpointId cost⟩
  · rcases findNextHop_cases e face endpointId with ⟨hall, _⟩ | ⟨l1, c0, l2, hl, hfront, _⟩
    · rw [addOrUpdateNextHop_of_absent S e face endpointId cost hall, hnull]
      rfl
    · by_cases hc : c0 = cost
      · subst hc
        rw [addOrUpdateNextHop_of_same S e face endpointId c0 l1 l2 hl hfront]
      · rw [addOrUpdateNextHop_of_other S e face endpointId cost c0 l1 l2 hl hfront hc, hnull]
        rfl
  · rcases findNextHop_cases e face endpointId with ⟨hall, _⟩ | ⟨l1, c0, l2, hl, hfront, _⟩
    · rw [addOrUpdateNextHop_of_absent S e face endpointId cost hall]
      exact hnull
    · by_cases hc : c0 = cost
      · subst hc
        rw [addOrUpdateNextHop_of_same S e face endpointId c0 l1 l2 hl hfront]
        exact hnull
      · rw [addOrUpdateNextHop_of_other S e face endpointId cost c0 l1 l2 hl hfront hc]
        exact hnull
  · intro nte
    exact addOrUpdateNextHop_nextHops_of_node S e face endpointId cost (some nte)

/-- C17 at the entry of the example, which has no owning node, for insertion
sort: adding `(F3, 7)` at cost 1 sends nothing and gives the list it gives for
the same entry in its trie, where three interests are sent. -/
theorem addOrUpdateNextHop_without_node_witness :
    exampleEntry.m_nameTreeEntry = none ∧
    (exampleEntry.addOrUpdateNextHop insertionSort 3 7 1).1.getNextHops =
      [⟨3, 7, 1⟩, ⟨2, 0, 2⟩, ⟨1, 0, 5⟩] ∧
    (exampleEntryInTree.addOrUpdateNextHop insertionSort 3 7 1).1.getNextHops =
      [⟨3, 7, 1⟩, ⟨2, 0, 2⟩, ⟨1, 0, 5⟩] ∧
    (exampleEntryInTree.addOrUpdateNextHop insertionSort 3 7 1).2.length = 3 ∧
    ((exampleEntry.addOrUpdateNextHop insertionSort 3 7 1).2 = [] ∧
      (exampleEntry.addOrUpdateNextHop insertionSort 3 7 1).1.m_nameTreeEntry = none ∧
      (∀ nte : name_tree.Entry,
        (({ exampleEntry with m_nameTreeEntry := some nte } : Entry).addOrUpdateNextHop
            insertionSort 3 7 1).1.getNextHops =
          (exampleEntry.addOrUpdateNextHop insertionSort 3 7 1).1.getNextHops) ∧
      (⟨3, 7, 1⟩ : NextHop) ∈
        (exampleEntry.addOrUpdateNextHop insertionSort 3 7 1).1.getNextHops) :=
  ⟨rfl, by decide, by decide, by decide,
    addOrUpdateNextHop_without_node insertionSort exampleEntry 3 7 1 rfl⟩

/-- C18: mutating one identity leaves the others alone.  For two distinct
identities `(f, e)` and `(f', e')`, `addOrUpdateNextHop(f, e, c)` and
`removeNextHop(f, e)` change neither `hasNextHop(f', e')` nor which records, with
which costs, the list holds for `(f', e')`; `removeNextHopByFace(f)` changes
neither for an identity whose face is not `f`; and none of the three changes
the prefix of the entry. -/
theorem mutation_frame (S : StdSort) (e : Entry) :
    (∀ (f : FaceRef) (ep : EndpointId) (c : Nat) (f' : FaceRef) (ep' : EndpointId),
      (f, ep) ≠ (f', ep') →
        ((e.addOrUpdateNextHop S f ep c).1.hasNextHop f' ep' = e.hasNextHop f' ep' ∧
          (∀ c' : Nat, (⟨f', ep', c'⟩ : NextHop) ∈ (e.addOrUpdateNextHop S f ep c).1.getNextHops ↔
            (⟨f', ep', c'⟩ : NextHop) ∈ e.getNextHops))) ∧
    (∀ (f : FaceRef) (ep : EndpointId) (f' : FaceRef) (ep' : EndpointId),
      (f, ep) ≠ (f', ep') →
        ((e.removeNextHop f ep).hasNextHop f' ep' = e.hasNextHop f' ep' ∧
          (∀ c' : Nat, (⟨f', ep', c'⟩ : NextHop) ∈ (e.removeNextHop f ep).getNextHops ↔
            (⟨f', ep', c'⟩ : NextHop) ∈ e.getNextHops))) ∧
    (∀ (f : FaceRef) (f' : FaceRef) (ep' : EndpointId),
      f' ≠ f →
        ((e.removeNextHopByFace f).hasNextHop f' ep' = e.hasNextHop f' ep' ∧
          (∀ c' : Nat, (⟨f', ep', c'⟩ : NextHop) ∈ (e.removeNextHopByFace f).getNextHops ↔
            (⟨f', ep', c'⟩ : NextHop) ∈ e.getNextHops))) ∧
    (∀ (f : FaceRef) (ep : EndpointId) (c : Nat),
      (e.addOrUpdateNextHop S f ep c).1.getPrefix = e.getPrefix ∧
      (e.removeNextHop f ep).getPrefix = e.getPrefix ∧
      (e.removeNextHopByFace f).getPrefix = e.getPrefix) := by
  have hne : ∀ (f : FaceRef) (ep : EndpointId) (f' : FaceRef) (ep' : EndpointId),
      (f, ep) ≠ (f', ep') → ∀ x : NextHop, x.face = f' → x.endpointId = ep' →
        ¬ (x.face = f ∧ x.endpointId = ep) := by
    intro f ep f' ep' h x hf he hsame
    apply h
    rw [← hsame.1, ← hsame.2, hf, he]
  refine ⟨?_, ?_, ?_, ?_⟩
  · intro f ep c f' ep' h
    refine ⟨hasNextHop_congr _ _ f' ep' ?_, ?_⟩
    · intro x hf he
      exact mem_addOrUpdateNextHop_of_ne S e f ep c x (hne f ep f' ep' h x hf he)
    · intro c'
      exact mem_addOrUpdateNextHop_of_ne S e f ep c _ (hne f ep f' ep' h _ rfl rfl)
  · intro f ep f' ep' h
    refine ⟨hasNextHop_congr _ _ f' ep' ?_, ?_⟩
    · intro x hf he
      exact mem_removeNextHop_of_ne e f ep x (hne f ep f' ep' h x hf he)
    · intro c'
      exact mem_removeNextHop_of_ne e f ep _ (hne f ep f' ep' h _ rfl rfl)
  · intro f f' ep' h
    refine ⟨hasNextHop_congr _ _ f' ep' ?_, ?_⟩
    · intro x hf _
      rw [mem_removeNextHopByFace]
      exact ⟨fun hx => hx.1, fun hx => ⟨hx, by rw [hf]; exact h⟩⟩
    · intro c'
      simp only [Entry.getNextHops]
      rw [mem_removeNextHopByFace]
      exact ⟨fun hx => hx.1, fun hx => ⟨hx, h⟩⟩
  · intro f ep c
    refine ⟨?_, ?_, rfl⟩
    · rcases findNextHop_cases e f ep with ⟨hall, _⟩ | ⟨l1, c0, l2, hl, hfront, _⟩
      · rw [addOrUpdateNextHop_of_absent S e f ep c hall]
        rfl
      · by_cases hc : c0 = c
        · subst hc
          rw [addOrUpdateNextHop_of_same S e f ep c0 l1 l2 hl hfront]
        · rw [addOrUpdateNextHop_of_other S e f ep c c0 l1 l2 hl hfront hc]
          rfl
    · rcases findNextHop_cases e f ep with ⟨hall, _⟩ | ⟨l1, c0, l2, hl, hfront, _⟩
      · rw [removeNextHop_of_absent e f ep hall]
      · rw [removeNextHop_of_split e f ep c0 l1 l2 hl hfront]
        rfl

/-- C18 at the entry of the example, for insertion sort: giving `(F2, 0)` the
cost 9, removing it, or removing the records of face 2 leaves `(F1, 0)` there
at cost 5. -/
theorem mutation_frame_witness :
    ((2, 0) : FaceRef × EndpointId) ≠ (1, 0) ∧
    (exampleEntry.addOrUpdateNextHop insertionSort 2 0 9).1.hasNextHop 1 0 =
      exampleEntry.hasNextHop 1 0 ∧
    ((⟨1, 0, 5⟩ : NextHop) ∈ (exampleEntry.addOrUpdateNextHop insertionSort 2 0 9).1.getNextHops ↔
      (⟨1, 0, 5⟩ : NextHop) ∈ exampleEntry.getNextHops) ∧
    (exampleEntry.removeNextHop 2 0).hasNextHop 1 0 = exampleEntry.hasNextHop 1 0 ∧
    (exampleEntry.removeNextHopByFace 2).hasNextHop 1 0 = exampleEntry.hasNextHop 1 0 ∧
    exampleEntry.hasNextHop 1 0 = true ∧
    (exampleEntry.addOrUpdateNextHop insertionSort 2 0 9).1.getNextHops =
      [⟨1, 0, 5⟩, ⟨2, 0, 9⟩] ∧
    (exampleEntry.removeNextHopByFace 2).getNextHops = [⟨1, 0, 5⟩] :=
  ⟨by decide,
    ((mutation_frame insertionSort exampleEntry).1 2 0 9 1 0 (by decide)).1,
    ((mutation_frame insertionSort exampleEntry).1 2 0 9 1 0 (by decide)).2 5,
    ((mutation_frame insertionSort exampleEntry).2.1 2 0 1 0 (by decide)).1,
    ((mutation_frame insertionSort exampleEntry).2.2.1 2 1 0 (by decide)).1,
    by decide, by decide, by decide⟩

end fib

namespace fw

/-! ## The multicast strategy -/

theorem afterReceiveInterestLoop_eq (F : Faces)
    (wouldViolateScope : FaceRef → Interest → FaceRef → Bool)
    (ingress : FaceEndpoint) (interest : Interest) (pitEntry : pit.Entry)
    (nexthops : fib.NextHopList) :
    afterReceiveInterestLoop F wouldViolateScope ingress interest pitEntry nexthops =
      (nexthops.filter (fun nh => !excluded F wouldViolateScope ingress interest nh)).map
        (fun nh => ⟨pitEntry, ⟨nh.face, 0⟩, interest⟩) := by
  induction nexthops with
  | nil => rfl
  | cons nh rest ih =>
    by_cases hex : excluded F wouldViolateScope ingress interest nh = true
    · have hcond := hex
      simp only [excluded] at hcond
      simp only [afterReceiveInterestLoop, fib.NextHop.getFace, hcond, if_true, ih]
      rw [List.filter_cons_of_neg (by simp [hex])]
    · have hex' : excluded F wouldViolateScope ingress interest nh = false := by
        simpa using hex
      have hcond := hex'
      simp only [excluded] at hcond
      simp only [afterReceiveInterestLoop, fib.NextHop.getFace, hcond, if_false, ih,
        Bool.false_eq_true]
      rw [List.filter_cons_of_pos (by simp [hex'])]
      rfl

/-- C9: `afterReceiveInterest` makes one `sendInterest` call for each next-hop
record of the looked-up FIB entry that is not excluded, in the order of the
next-hop list, and none for an excluded record; a record is excluded when its
face has the id of the ingress face and is not ad-hoc, or when
`wouldViolateScope(ingress face, interest, its face)` holds.  The loop does not
stop early.  In the example of the spec, with next hops `[A, B, C]`, `B` the
ingress face and not ad-hoc, and `C` failing the scope predicate, there is one
send, to `A`. -/
theorem afterReceiveInterest_spec :
    (∀ (F : Faces) (wouldViolateScope : FaceRef → Interest → FaceRef → Bool)
      (lookupFib : pit.Entry → fib.Entry) (ingress : FaceEndpoint) (interest : Interest)
      (pitEntry : pit.Entry),
      afterReceiveInterest F wouldViolateScope lookupFib ingress interest pitEntry =
        ((lookupFib pitEntry).getNextHops.filter
          (fun nh => !excluded F wouldViolateScope ingress interest nh)).map
          (fun nh => ⟨pitEntry, ⟨nh.face, 0⟩, interest⟩)) ∧
    (∀ pitEntry : pit.Entry,
      afterReceiveInterest exampleFaces exampleScope (fun _ => exampleFib) ⟨2, 0⟩
        exampleInterest pitEntry = [⟨pitEntry, ⟨1, 0⟩, exampleInterest⟩]) := by
  constructor
  · intro F wouldViolateScope lookupFib ingress interest pitEntry
    simp only [afterReceiveInterest]
    exact afterReceiveInterestLoop_eq _ _ _ _ _ _
  · intro pitEntry
    rfl

/-- C10: `afterReceiveInterest` never forwards back out the ingress: no
`sendInterest` goes to a face with the id of the ingress face unless the
ingress face is ad-hoc.  A face id names one face, as the face table gives each
face an id of its own. -/
theorem afterReceiveInterest_not_to_ingress (F : Faces)
    (wouldViolateScope : FaceRef → Interest → FaceRef → Bool)
    (lookupFib : pit.Entry → fib.Entry) (ingress : FaceEndpoint) (interest : Interest)
    (pitEntry : pit.Entry)
    (hid : ∀ a b : FaceRef, F.getId a = F.getId b → a = b) :
    ∀ s ∈ afterReceiveInterest F wouldViolateScope lookupFib ingress interest pitEntry,
      F.getId s.egress.face = F.getId ingress.face →
        F.getLinkType ingress.face = LinkType.LINK_TYPE_AD_HOC := by
  intro s hs hsame
  simp only [afterReceiveInterest] at hs
  rw [afterReceiveInterestLoop_eq, List.mem_map] at hs
  obtain ⟨nh, hnh, rfl⟩ := hs
  rw [List.mem_filter] at hnh
  have hex : excluded F wouldViolateScope ingress interest nh = false := by
    simpa using hnh.2
  simp only [excluded, Bool.or_eq_false_iff, Bool.and_eq_false_imp, decide_eq_true_eq,
    decide_eq_false_iff_not, not_not] at hex
  have hface : nh.face = ingress.face := hid _ _ hsame
  rw [← hface]
  exact hex.1 hsame

/-- C10 in the example of the spec: ids are the addresses, the ingress is `B`,
and the one send goes to `A`. -/
theorem afterReceiveInterest_not_to_ingress_witness :
    (∀ a b : FaceRef, exampleFaces.getId a = exampleFaces.getId b → a = b) ∧
    (∀ s ∈ afterReceiveInterest exampleFaces exampleScope (fun _ => exampleFib) ⟨2, 0⟩
        exampleInterest ⟨exampleInterest, false⟩,
      exampleFaces.getId s.egress.face = exampleFaces.getId 2 →
        exampleFaces.getLinkType 2 = LinkType.LINK_TYPE_AD_HOC) :=
  ⟨fun _ _ h => h,
    afterReceiveInterest_not_to_ingress exampleFaces exampleScope (fun _ => exampleFib)
      ⟨2, 0⟩ exampleInterest ⟨exampleInterest, false⟩ (fun _ _ h => h)⟩

/-- The last component of the strategy name, `%FD%03`, is the version 3. -/
theorem toVersion_getStrategyName :
    toVersion (MulticastStrategy.getStrategyName.getLastD "") = some 3 := by
  decide

/-- C11: the construction of `MulticastStrategy` from a parsed instance name
throws `std::invalid_argument` exactly when the parsed parameters are not empty
or a version is present that is not 3, the version of the last component
`%FD%03` of the strategy name; it succeeds exactly when there are no parameters
and the version is absent or 3.  An instance name with one more component
behind the version fails, one with the version 3 succeeds, one with the version
4 fails. -/
theorem MulticastStrategy_new_spec :
    (∀ (parse : Name → ParsedInstanceName) (make : Name → Name → Name) (name : Name),
      ((∃ what : String, MulticastStrategy.new parse make name =
          Except.error (ConstructionError.invalid_argument what)) ↔
        ((parse name).parameters ≠ [] ∨
          ∃ v : Nat, (parse name).version = some v ∧ v ≠ 3)) ∧
      (MulticastStrategy.new parse make name =
          Except.ok { instanceName := make name MulticastStrategy.getStrategyName } ↔
        ((parse name).parameters = [] ∧
          ((parse name).version = none ∨ (parse name).version = some 3)))) ∧
    toVersion (MulticastStrategy.getStrategyName.getLastD "") = some 3 ∧
    MulticastStrategy.new parseInstanceName makeInstanceName
        ["localhost", "nfd", "strategy", "multicast", "%FD%03", "param"] =
      Except.error (ConstructionError.invalid_argument
        "MulticastStrategy does not accept parameters") ∧
    MulticastStrategy.new parseInstanceName makeInstanceName
        ["localhost", "nfd", "strategy", "multicast", "%FD%03"] =
      Except.ok { instanceName := ["localhost", "nfd", "strategy", "multicast", "%FD%03"] } ∧
    MulticastStrategy.new parseInstanceName makeInstanceName
        ["localhost", "nfd", "strategy", "multicast", "%FD%04"] =
      Except.error (ConstructionError.invalid_argument
        "MulticastStrategy does not support version 4") := by
  refine ⟨?_, toVersion_getStrategyName, rfl, rfl, rfl⟩
  intro parse make name
  have hv := toVersion_getStrategyName
  cases hp : (parse name).parameters with
  | cons p ps =>
    simp [MulticastStrategy.new, hp]
  | nil =>
    cases hver : (parse name).version with
    | none =>
      simp [MulticastStrategy.new, hp, hver]
    | some v =>
      by_cases h3 : v = 3
      · subst h3
        simp only [MulticastStrategy.new, hp, hver, hv]
        simp
      · simp only [MulticastStrategy.new, hp, hver, hv]
        simp [h3]

/-- C12: `afterReceiveNack` makes no call of `sendInterest` and leaves the state
as it is, the strategy, the FIB entries and the PIT entry, whatever the
ingress, the nack and the PIT entry are. -/
theorem afterReceiveNack_noop (w : StrategyWorld) (ingress : FaceEndpoint) (nack : Nack) :
    (afterReceiveNack w ingress nack).2 = [] ∧
      (afterReceiveNack w ingress nack).1 = w ∧
      (afterReceiveNack w ingress nack).1.strategy = w.strategy ∧
      (afterReceiveNack w ingress nack).1.fibEntries = w.fibEntries ∧
      (afterReceiveNack w ingress nack).1.pitEntry = w.pitEntry :=
  ⟨rfl, rfl, rfl, rfl, rfl⟩

theorem count_afterReceiveInterestLoop (F : Faces)
    (wouldViolateScope : FaceRef → Interest → FaceRef → Bool)
    (ingress : FaceEndpoint) (interest : Interest) (pitEntry : pit.Entry) (face : FaceRef)
    (nexthops : fib.NextHopList) :
    (afterReceiveInterestLoop F wouldViolateScope ingress interest pitEntry nexthops).count
        ⟨pitEntry, ⟨face, 0⟩, interest⟩ =
      (nexthops.filter (fun nh => decide (nh.face = face) &&
        !excluded F wouldViolateScope ingress interest nh)).length := by
  rw [afterReceiveInterestLoop_eq]
  induction nexthops with
  | nil => rfl
  | cons nh rest ih =>
    by_cases hex : excluded F wouldViolateScope ingress interest nh = true
    · rw [List.filter_cons_of_neg (by simp [hex]), List.filter_cons_of_neg (by simp [hex])]
      exact ih
    · have hex' : excluded F wouldViolateScope ingress interest nh = false := by
        simpa using hex
      rw [List.filter_cons_of_pos (by simp [hex']), List.map_cons]
      by_cases hf : nh.face = face
      · rw [List.filter_cons_of_pos (by simp [hex', hf]), List.length_cons, ← ih, hf,
          List.count_cons_self]
      · rw [List.filter_cons_of_neg (by simp [hf]), ← ih, List.count_cons_of_ne]
        intro heq
        apply hf
        have := congrArg (fun s : SendInterestCall => s.egress.face) heq
        exact this.symm

/-- C16: every `sendInterest` of `afterReceiveInterest` goes to the endpoint id 0 of
the face of a next hop that is not excluded, whatever endpoint id the record
has; so a face gets as many sends, each to `(face, 0)`, as it has records that
are not excluded.  In the example a face with three records, on the endpoints
7, 8 and 9, gets three sends to its endpoint 0. -/
theorem afterReceiveInterest_endpoint_zero :
    (∀ (F : Faces) (wouldViolateScope : FaceRef → Interest → FaceRef → Bool)
      (lookupFib : pit.Entry → fib.Entry) (ingress : FaceEndpoint) (interest : Interest)
      (pitEntry : pit.Entry),
      (∀ s ∈ afterReceiveInterest F wouldViolateScope lookupFib ingress interest pitEntry,
        s.egress.endpoint = 0 ∧
          ∃ nh ∈ (lookupFib pitEntry).getNextHops, s.egress.face = nh.face ∧
            excluded F wouldViolateScope ingress interest nh = false) ∧
      (∀ face : FaceRef,
        (afterReceiveInterest F wouldViolateScope lookupFib ingress interest pitEntry).count
            ⟨pitEntry, ⟨face, 0⟩, interest⟩ =
          ((lookupFib pitEntry).getNextHops.filter (fun nh => decide (nh.face = face) &&
            !excluded F wouldViolateScope ingress interest nh)).length)) ∧
    (∀ pitEntry : pit.Entry,
      afterReceiveInterest exampleFaces (fun _ _ _ => false) (fun _ => exampleFibEndpoints)
          ⟨3, 0⟩ exampleInterest pitEntry =
        [⟨pitEntry, ⟨1, 0⟩, exampleInterest⟩, ⟨pitEntry, ⟨2, 0⟩, exampleInterest⟩,
          ⟨pitEntry, ⟨1, 0⟩, exampleInterest⟩, ⟨pitEntry, ⟨1, 0⟩, exampleInterest⟩]) := by
  refine ⟨?_, fun _ => rfl⟩
  intro F wouldViolateScope lookupFib ingress interest pitEntry
  constructor
  · intro s hs
    simp only [afterReceiveInterest] at hs
    rw [afterReceiveInterestLoop_eq, List.mem_map] at hs
    obtain ⟨nh, hnh, rfl⟩ := hs
    rw [List.mem_filter] at hnh
    exact ⟨rfl, nh, hnh.1, rfl, by simpa using hnh.2⟩
  · intro face
    simp only [afterReceiveInterest]
    exact count_afterReceiveInterestLoop _ _ _ _ _ _ _

end fw

end nfd
